import Mathlib

/-!
# Flowdock client: a shallow embedding and its verified properties

The Go package `flowdock` (files `resources.go`, `client.go`, `flowdock.go`,
`events.go`) is embedded function by function.  Go values are modelled as
follows.

* `int64` is `Int`; where a value is produced by the JSON decoder its range
  `[-2^63, 2^63)` is checked explicitly.
* `float64` is `Float64`, the sign, significand and exponent of a finite binary64
  value; rounding of decimal literals is computed exactly.
* `string` is `String`.
* A slice `[]T` that is only ranged over is a `List T` (a nil slice and an empty
  slice both range over nothing).  Where the code tests `== nil`, the slice is an
  `Option (List T)` with `none` for the nil slice.  A slice the JSON decoder
  writes is a `GoSlice T`, which also keeps the backing array beyond the length.
* A `map[string]V` is an association list with unique keys (`GoMap V`); writing
  an existing key replaces its value, reading an absent key gives `none`.
* A function that can panic returns a `GoResult`: `returned v` or `panicked`.
* Logging (`log.Println`) and the HTTP transport are not modelled.
-/

set_option autoImplicit false

namespace Flowdock

/-! ## Go maps -/

/-- Model of `map[string]V`: the nil map and the empty map are both `[]`. -/
abbrev GoMap (V : Type) := List (String × V)

/-- The read `v, ok := m[k]`. -/
def GoMap.get? {V : Type} : GoMap V → String → Option V
  | [], _ => none
  | (k', v) :: rest, k => if k' = k then some v else GoMap.get? rest k

/-- The write `m[k] = v`. -/
def GoMap.set {V : Type} : GoMap V → String → V → GoMap V
  | [], k, v => [(k, v)]
  | (k', v') :: rest, k, v =>
    if k' = k then (k, v) :: rest else (k', v') :: GoMap.set rest k v

/-- The key set of a map, as a list. -/
def GoMap.keys {V : Type} (m : GoMap V) : List String := m.map Prod.fst

/-- Model of `len(m)`. -/
def GoMap.len {V : Type} (m : GoMap V) : Nat := m.length

/-! ## resources.go -/

/-- The `User` resource of `GET /users`. -/
structure User where
  ID : Int
  Name : String
  Nick : String
  AvatarURL : String
  Status : String
  LastActivityTimestamp : Int
  LastPingTimestamp : Int
  Email : String
deriving DecidableEq, Repr

/-- The zero value of `User`. -/
def User.zero : User := ⟨0, "", "", "", "", 0, 0, ""⟩

/-- The `Organization` resource of `GET /organizations`. -/
structure Organization where
  ID : Int
  APIName : String
  Name : String
  APIURL : String
  Users : List User
deriving DecidableEq, Repr

/-- The `Flow` resource of `GET /flows`. -/
structure Flow where
  ID : String
  APIURL : String
  WebURL : String
  Name : String
  APIName : String
  Organization : Organization
deriving DecidableEq, Repr

/-- The digit loop of `strconv.FormatInt(_, 10)`: the least significant digit is
produced first and written in front of the digits already produced. -/
def formatBits : Nat → Nat → List Char → List Char
  | 0, _, acc => acc
  | fuel + 1, n, acc =>
    if n < 10 then Nat.digitChar n :: acc
    else formatBits fuel (n / 10) (Nat.digitChar (n % 10) :: acc)

/-- The decimal digits of a non-negative value (`n + 1` rounds always suffice). -/
def formatNat (n : Nat) : String := String.mk (formatBits (n + 1) n [])

/-- Model of `strconv.FormatInt(i, 10)`: decimal digits, with a leading `-` for a
negative value. -/
def formatInt (i : Int) : String :=
  if i < 0 then "-" ++ formatNat i.natAbs else formatNat i.natAbs

/-- The value of a string of decimal digits. -/
def digitsValue (l : List Char) : Nat :=
  l.foldl (fun a c => a * 10 + (c.toNat - 48)) 0

/-- Reading a decimal string back: the inverse of `formatInt`. -/
def parseInt (s : String) : Int :=
  match s.data with
  | '-' :: rest => - (digitsValue rest : Int)
  | l => (digitsValue l : Int)

/-- The loop of `getUsers` that projects the decoded array into the user map:
`for _, user := range users { userMap[FormatInt(user.ID, 10)] = user }`. -/
def getUsers.loop : List User → GoMap User → GoMap User
  | [], userMap => userMap
  | user :: rest, userMap =>
    let userID := formatInt user.ID
    getUsers.loop rest (userMap.set userID user)

/-- The part of `getUsers` after the body has been fetched and decoded into
`users`: the map starts empty (`make(map[string]User)`). -/
def getUsers.build (users : List User) : GoMap User :=
  getUsers.loop users []

/-! ## client.go -/

/-- The `Client` record.  The `streamClient` pointer belongs to the HTTP
streaming library and is not part of the state the lookups read. -/
structure Client where
  apiKey : String
  organizations : List Organization
  availableFlows : List Flow
  users : GoMap User
deriving DecidableEq, Repr

/-- Model of `DetailsForUser`: `c.users[id]`, which is the zero `User` when the key
is absent. -/
def DetailsForUser (c : Client) (id : String) : User :=
  match c.users.get? id with
  | some u => u
  | none => User.zero

/-- The `range` loop of `DetailsForFlow`. -/
def DetailsForFlow.loop (id : String) : List Flow → Option Flow
  | [] => none
  | flow :: rest => if flow.ID = id then some flow else DetailsForFlow.loop id rest

/-- Model of `DetailsForFlow`: a pointer to a copy of the matching flow, or nil
(`none`). -/
def DetailsForFlow (c : Client) (id : String) : Option Flow :=
  DetailsForFlow.loop id c.availableFlows

/-- The `range` loop of `flowStreamURL`; `len` is `len(flows)` of the whole slice,
`i` the current index. -/
def flowStreamURL.loop (len : Nat) : Nat → List Flow → String → String
  | _, [], flowURL => flowURL
  | i, flow :: rest, flowURL =>
    if (i : Int) = (len : Int) - 1 then
      flowStreamURL.loop len (i + 1) rest
        (flowURL ++ flow.Organization.APIName ++ "/" ++ flow.APIName)
    else
      flowStreamURL.loop len (i + 1) rest
        (flowURL ++ flow.Organization.APIName ++ "/" ++ flow.APIName ++ ",")

/-- Model of `flowStreamURL`; `flows = none` is the nil slice. -/
def flowStreamURL (c : Client) (flows : Option (List Flow)) : String :=
  let flows := match flows with
    | none => c.availableFlows
    | some fs => fs
  flowStreamURL.loop flows.length 0 flows "https://stream.flowdock.com/flows?filter="

/-- The URL that `Connect` hands to the stream client:
`flowURL := flowStreamURL(c, flows)`. -/
def Connect.flowURL (c : Client) (flows : Option (List Flow)) : String :=
  flowStreamURL c flows

/-- The filter token of a flow, in the spec's words:
`{org-api-name}/{flow-api-name}`. -/
def filterPair (flow : Flow) : String :=
  flow.Organization.APIName ++ "/" ++ flow.APIName

/-- A flow with the given organisation slug and flow slug, other fields empty. -/
def mkFlow (id org name : String) : Flow :=
  ⟨id, "", "", "", name, ⟨0, org, "", "", []⟩⟩

/-! ## flowdock.go -/

/-- Model of the Go conversion `string(i)` of an integer: the UTF-8 text of the code
point `i`, and U+FFFD when `i` is not a valid code point. -/
def goStringOfInt (i : Int) : String :=
  if 0 ≤ i ∧ i.toNat.isValidChar then String.singleton (Char.ofNat i.toNat)
  else String.singleton (Char.ofNat 0xFFFD)

/-- Model of `url.Values.Set(key, value)`: the key's values become `[value]`. -/
def Values.Set (v : GoMap (List String)) (key value : String) : GoMap (List String) :=
  v.set key [value]

/-- The form that `pushMessage` builds and posts (`v := url.Values{}` up to the
`http.PostForm` call). -/
def pushMessage.form (message sender : String) (threadID : Int) : GoMap (List String) :=
  let v : GoMap (List String) := []
  let v := Values.Set v "content" message
  let v := Values.Set v "external_user_name" sender
  if threadID ≠ 0 then Values.Set v "message_id" (goStringOfInt threadID) else v

/-- The form posted by `PushMessageToFlowWithKey`, which passes thread id 0. -/
def PushMessageToFlowWithKey.form (message sender : String) : GoMap (List String) :=
  pushMessage.form message sender 0

/-- The form posted by `ReplyToThreadInFlowWithKey`. -/
def ReplyToThreadInFlowWithKey.form (message sender : String) (threadID : Int) :
    GoMap (List String) :=
  pushMessage.form message sender threadID

/-! ## JSON documents and `encoding/json`

`events.go` calls `json.Unmarshal` of the Go standard library.  The library is
modelled on parsed documents: `Json` is the syntax tree of a well-formed text, and
the scanner that accepts or rejects a byte string is a parameter `scan` of the
decoder.  The decoding rules below are those of `encoding/json`:

* a key matches a struct field when it equals the field's JSON name up to case
  folding (`foldName`), other keys are skipped;
* `null` leaves a string, integer or struct unchanged and resets a slice, map or
  interface to nil;
* a number stored in an `interface{}` is the `float64` nearest to the literal
  (`strconv.ParseFloat`, ties to even);
* a value of the wrong JSON type, an integer literal with a fraction or exponent
  or outside `int64`, and a number outside the `float64` range are an
  `UnmarshalTypeError`; the first error in document order is the one returned;
* a value is decoded into the current content of its target, so a repeated key
  writes the same field again, and a slice decoded again reuses the elements of
  its backing array.
-/

/-- A JSON number literal: `int neg abs` is a literal without fraction or exponent,
`-abs` when `neg` and `abs` otherwise; `real` is a literal with a fraction or an
exponent, of value `± mantissa * 10 ^ exponent`. -/
inductive JNumber
  | int (neg : Bool) (abs : Nat)
  | real (neg : Bool) (mantissa : Nat) (exponent : Int)
deriving DecidableEq, Repr

/-- The literal of an integer: its decimal digits, with a leading minus sign when it is
negative. -/
def JNumber.ofInt (v : Int) : JNumber := .int (decide (v < 0)) v.natAbs

/-- A finite `float64` in the layout of IEEE 754 binary64: the sign, the 53-bit
significand `mant` (hidden bit included) and `shift`, the exponent counted from the
least one; the value is `± mant * 2 ^ shift / 2 ^ 1074`.  A normal number has
`2 ^ 52 ≤ mant`, a subnormal number and zero have `shift = 0`. -/
structure Float64 where
  neg : Bool
  mant : Nat
  shift : Nat
deriving DecidableEq, Repr

/-- The syntax tree of a well-formed JSON text; an object keeps its members in
document order, repeated keys included. -/
inductive Json
  | null
  | bool (b : Bool)
  | num (n : JNumber)
  | str (s : String)
  | arr (elems : List Json)
  | obj (members : List (String × Json))
deriving Repr

/-- The dynamic values `encoding/json` stores in an `interface{}`: nil, `bool`,
`float64`, `string`, `[]interface{}` and `map[string]interface{}`.  A map keeps its
entries in the order in which their keys were first written. -/
inductive GoValue
  | nil
  | bool (b : Bool)
  | float64 (f : Float64)
  | string (s : String)
  | slice (elems : List GoValue)
  | map (m : List (String × GoValue))
deriving Repr

/-- The errors `json.Unmarshal` returns. -/
inductive JsonError
  | syntaxError
  | unmarshalTypeError
deriving DecidableEq, Repr

/-- The result of a call that may panic instead of returning. -/
inductive GoResult (α : Type)
  | returned (v : α)
  | panicked
deriving Repr

/-- Exponentiation by repeated squaring; `fuel` bounds the exponent. -/
def natPowFuel : Nat → Nat → Nat → Nat
  | 0, _, _ => 1
  | fuel + 1, b, n =>
    if n = 0 then 1
    else if n % 2 = 1 then b * natPowFuel fuel (b * b) (n / 2)
    else natPowFuel fuel (b * b) (n / 2)

/-- The power `b ^ n`. -/
def natPow (b n : Nat) : Nat := natPowFuel n b n

/-- The sign of a number literal. -/
def JNumber.neg : JNumber → Bool
  | .int neg _ => neg
  | .real neg _ _ => neg

/-- The numerator of the magnitude of a number literal. -/
def JNumber.numer : JNumber → Nat
  | .int _ a => a
  | .real _ m e => if 0 ≤ e then m * natPow 10 e.toNat else m

/-- The denominator of the magnitude of a number literal, a power of ten. -/
def JNumber.denom : JNumber → Nat
  | .int _ _ => 1
  | .real _ _ e => if 0 ≤ e then 1 else natPow 10 (-e).toNat

/-- The integer nearest to `num / den`, a tie going to the even one. -/
def roundHalfEven (num den : Nat) : Nat :=
  if den < 2 * (num % den) ∨ (2 * (num % den) = den ∧ (num / den) % 2 = 1) then num / den + 1
  else num / den

/-- The steps of the bisection in `findShift`. -/
def shiftSteps : List Nat := [1024, 512, 256, 128, 64, 32, 16, 8, 4, 2, 1]

/-- The least `s` with `a < b * 2 ^ s`, capped at 2047, found by bisection from `s`. -/
def findShift (a b : Nat) : List Nat → Nat → Nat
  | [], s => s
  | step :: rest, s =>
    if a < b * natPow 2 (s + step - 1) then findShift a b rest s
    else findShift a b rest (s + step)

/-- The number `2 ^ 53`. -/
def two53 : Nat := 9007199254740992

/-- The number `2 ^ 52`. -/
def two52 : Nat := 4503599627370496

/-- Model of `strconv.ParseFloat(s, 64)` on a number literal: the nearest `float64`,
ties to even, and `none` when the rounded value exceeds the largest `float64`
(`ErrRange`).  A magnitude below the least subnormal rounds to zero without error. -/
def parseFloat64 (n : JNumber) : Option Float64 :=
  let a := n.numer * natPow 2 1074
  let s := findShift a (n.denom * two53) shiftSteps 0
  let q := roundHalfEven a (n.denom * natPow 2 s)
  if q = two53 then
    if 2045 < s + 1 then none else some ⟨n.neg, two52, s + 1⟩
  else
    if 2045 < s then none else some ⟨n.neg, q, s⟩

/-- The least magnitude that `strconv.ParseFloat(_, 64)` rejects as out of range:
`2 ^ 1024 - 2 ^ 970`, half an ulp above the largest `float64`. -/
def float64Limit : Nat :=
  179769313486231580793728971405303415079934132710037826936173778980444968292764750946649017977587207096330286416692887910946555547851940402630657488671505820681908902000708383676273854845817711531764475730270069855571366959622842914819860834936475292719074168444365510704342711559699508093042880177904174497792

/-- Whether the magnitude of a number literal is out of the `float64` range. -/
def JNumber.overflowsFloat64 (n : JNumber) : Bool :=
  decide (float64Limit * n.denom ≤ n.numer)

/-- Model of `decodeState.convertNumber`: a number literal as a `float64`, or an
`UnmarshalTypeError` when it is out of range. -/
def convertNumber (n : JNumber) : Except JsonError GoValue :=
  match parseFloat64 n with
  | none => .error .unmarshalTypeError
  | some f => .ok (.float64 f)

mutual
/-- Model of `decodeState.valueInterface`: decoding a document into an
`interface{}`. -/
def valueInterface : Json → Except JsonError GoValue
  | .null => .ok .nil
  | .bool b => .ok (.bool b)
  | .num n => convertNumber n
  | .str s => .ok (.string s)
  | .arr elems =>
    match arrayInterface elems with
    | .ok vs => .ok (.slice vs)
    | .error err => .error err
  | .obj members =>
    match objectInterface members [] with
    | .ok m => .ok (.map m)
    | .error err => .error err
/-- Model of `decodeState.arrayInterface`. -/
def arrayInterface : List Json → Except JsonError (List GoValue)
  | [] => .ok []
  | x :: xs =>
    match valueInterface x with
    | .error err => .error err
    | .ok v =>
      match arrayInterface xs with
      | .error err => .error err
      | .ok vs => .ok (v :: vs)
/-- Model of `decodeState.objectInterface` and of decoding an object into a
`map[string]interface{}` that already holds `m`: each member is written under its
key, a later member replacing an earlier one. -/
def objectInterface : List (String × Json) → List (String × GoValue) →
    Except JsonError (List (String × GoValue))
  | [], m => .ok m
  | (k, x) :: rest, m =>
    match valueInterface x with
    | .error err => .error err
    | .ok v => objectInterface rest (GoMap.set m k v)
end

/-- Case folding of one rune of a key: ASCII upper case to lower case, and the two
non-ASCII runes that fold to ASCII letters (U+017F to `s`, U+212A to `k`). -/
def foldRune (c : Char) : Char :=
  if 65 ≤ c.toNat ∧ c.toNat ≤ 90 then Char.ofNat (c.toNat + 32)
  else if c.toNat = 0x17F then 's'
  else if c.toNat = 0x212A then 'k'
  else c

/-- Case folding of a key.  A key matches the field of lower-case JSON name `n`
exactly when `foldName key = n`. -/
def foldName (key : String) : String := String.mk (key.data.map foldRune)

/-- Storing a JSON value into a Go `string`. -/
def storeString (cur : String) : Json → Except JsonError String
  | .null => .ok cur
  | .str s => .ok s
  | _ => .error .unmarshalTypeError

/-- Storing a JSON value into a Go `int64` (`strconv.ParseInt(s, 10, 64)` on the
literal). -/
def storeInt64 (cur : Int) : Json → Except JsonError Int
  | .null => .ok cur
  | .num (.int neg abs) =>
    let v : Int := if neg then -(abs : Int) else (abs : Int)
    if -9223372036854775808 ≤ v ∧ v ≤ 9223372036854775807 then .ok v
    else .error .unmarshalTypeError
  | _ => .error .unmarshalTypeError

/-- A Go slice `[]α` as the decoder sees it: the elements up to its length, and
`spare`, the elements of its backing array beyond the length, which a later decode
into the same slice uncovers.  The nil slice and the empty slice are both
`⟨[], []⟩`. -/
structure GoSlice (α : Type) where
  elems : List α
  spare : List α
deriving DecidableEq, Repr

/-- The nil slice. -/
def GoSlice.nil {α : Type} : GoSlice α := ⟨[], []⟩

/-- A freshly allocated slice holding the given elements. -/
def GoSlice.ofList {α : Type} (l : List α) : GoSlice α := ⟨l, []⟩

/-- Storing the elements of a JSON array over a backing array: element `i` is decoded
by `store` into the current element `i` of the backing array, or into `zero` beyond
it. -/
def storeElems {α : Type} (store : α → Json → Except JsonError α) (zero : α) :
    List α → List Json → Except JsonError (List α)
  | _, [] => .ok []
  | cur, x :: xs =>
    match store (cur.headD zero) x with
    | .error err => .error err
    | .ok v =>
      match storeElems store zero cur.tail xs with
      | .error err => .error err
      | .ok vs => .ok (v :: vs)

/-- Storing a JSON value into a Go slice `[]α`: `null` and the empty array give an
empty slice with no backing array; a non-empty array is decoded element by element
over the backing array, and the elements of the backing array beyond the new length
stay behind it. -/
def storeSlice {α : Type} (store : α → Json → Except JsonError α) (zero : α)
    (cur : GoSlice α) : Json → Except JsonError (GoSlice α)
  | .null => .ok ⟨[], []⟩
  | .arr [] => .ok ⟨[], []⟩
  | .arr (x :: xs) =>
    match storeElems store zero (cur.elems ++ cur.spare) (x :: xs) with
    | .error err => .error err
    | .ok vs => .ok ⟨vs, (cur.elems ++ cur.spare).drop (x :: xs).length⟩
  | _ => .error .unmarshalTypeError

/-- Storing a JSON value into a Go `[]string`. -/
def storeStringSlice (cur : GoSlice String) (j : Json) : Except JsonError (GoSlice String) :=
  storeSlice storeString "" cur j

/-- Storing a JSON value into a Go `map[string]interface{}`. -/
def storeMap (cur : GoMap GoValue) : Json → Except JsonError (GoMap GoValue)
  | .null => .ok []
  | .obj members => objectInterface members cur
  | _ => .error .unmarshalTypeError

/-- Storing a JSON value into a Go `[]map[string]interface{}`. -/
def storeMapSlice (cur : GoSlice (GoMap GoValue)) (j : Json) :
    Except JsonError (GoSlice (GoMap GoValue)) :=
  storeSlice storeMap [] cur j

/-- Storing a JSON value into a Go `interface{}` that holds no pointer. -/
def storeInterface (_cur : GoValue) (j : Json) : Except JsonError GoValue :=
  valueInterface j

/-- The members of an object decoded one after the other into a struct; `field`
stores one member. -/
def objectFields {T : Type} (field : T → String → Json → Except JsonError T) :
    List (String × Json) → T → Except JsonError T
  | [], e => .ok e
  | (k, v) :: rest, e =>
    match field e k v with
    | .error err => .error err
    | .ok e' => objectFields field rest e'

/-- Storing a JSON value into a Go struct. -/
def storeStruct {T : Type} (field : T → String → Json → Except JsonError T) (cur : T) :
    Json → Except JsonError T
  | .null => .ok cur
  | .obj members => objectFields field members cur
  | _ => .error .unmarshalTypeError

/-- Model of `json.Unmarshal(data, &target)`: the scanner checks the whole text
first, then the document is stored into the target. -/
def Unmarshal {T : Type} (scan : List UInt8 → Option Json)
    (store : T → Json → Except JsonError T) (data : List UInt8) (target : T) :
    Except JsonError T :=
  match scan data with
  | none => .error .syntaxError
  | some doc => store target doc

/-! ## events.go -/

/-- The fields shared by the seven typed event structs, which differ only in the
type `C` of `Content` and the type `A` of `Attachments`. -/
structure EventRecord (C A : Type) where
  Tags : GoSlice String
  ID : Int
  Flow : String
  Content : C
  Timestamp : Int
  Attachments : A
  UserID : String
deriving Repr

/-- The `Content` struct of `CommentEvent`. -/
structure CommentContent where
  Title : String
  Text : String
deriving DecidableEq, Repr

/-- The `Content` struct of `TagChangeEvent`. -/
structure TagChangeContent where
  Added : GoSlice String
  Removed : GoSlice String
  MessageID : Int
deriving DecidableEq, Repr

/-- The `Content` struct of `MessageEditEvent`. -/
structure MessageEditContent where
  UpdatedMessage : String
  MessageID : Int
deriving DecidableEq, Repr

/-- The `Content` struct of `UserActivityEvent`. -/
structure UserActivityContent where
  LastActivityTimestamp : Int
deriving DecidableEq, Repr

/-- `MessageEvent`: string content, string attachments. -/
abbrev MessageEvent := EventRecord String (GoSlice String)

/-- `StatusEvent`: string content, string attachments. -/
abbrev StatusEvent := EventRecord String (GoSlice String)

/-- `CommentEvent`. -/
abbrev CommentEvent := EventRecord CommentContent (GoSlice String)

/-- `TagChangeEvent`. -/
abbrev TagChangeEvent := EventRecord TagChangeContent (GoSlice String)

/-- `MessageEditEvent`. -/
abbrev MessageEditEvent := EventRecord MessageEditContent (GoSlice String)

/-- `UserActivityEvent`. -/
abbrev UserActivityEvent := EventRecord UserActivityContent (GoSlice String)

/-- `FileEvent`: `map[string]interface{}` content and a slice of such maps as
attachments. -/
abbrev FileEvent := EventRecord (GoMap GoValue) (GoSlice (GoMap GoValue))

/-- `ActionEvent`: the catch-all struct, with the wire tag in `Type_` (Go's `Type`) and an
`interface{}` content. -/
structure ActionEvent where
  Type_ : String
  Tags : GoSlice String
  ID : Int
  Flow : String
  Content : GoValue
  Timestamp : Int
  Attachments : GoSlice String
  UserID : String
deriving Repr

/-- The dynamic types `unmarshalFlowdockJSONEvent` stores in an `Event`. -/
inductive Event
  | message (e : MessageEvent)
  | status (e : StatusEvent)
  | messageEdit (e : MessageEditEvent)
  | comment (e : CommentEvent)
  | tagChange (e : TagChangeEvent)
  | userActivity (e : UserActivityEvent)
  | file (e : FileEvent)
  | action (e : ActionEvent)
deriving Repr

/-- The zero value of an event struct with zero content `c` and zero attachments
`a`. -/
def EventRecord.zero {C A : Type} (c : C) (a : A) : EventRecord C A :=
  ⟨GoSlice.nil, 0, "", c, 0, a, ""⟩

/-- The zero value of `ActionEvent`. -/
def ActionEvent.zero : ActionEvent :=
  ⟨"", GoSlice.nil, 0, "", .nil, 0, GoSlice.nil, ""⟩

/-- One member stored into an event struct, by the `json` tags of its fields. -/
def EventRecord.field {C A : Type} (storeC : C → Json → Except JsonError C)
    (storeA : A → Json → Except JsonError A) (e : EventRecord C A) (key : String)
    (v : Json) : Except JsonError (EventRecord C A) :=
  if foldName key = "tags" then (storeStringSlice e.Tags v).map (fun x => { e with Tags := x })
  else if foldName key = "id" then (storeInt64 e.ID v).map (fun x => { e with ID := x })
  else if foldName key = "flow" then (storeString e.Flow v).map (fun x => { e with Flow := x })
  else if foldName key = "content" then (storeC e.Content v).map (fun x => { e with Content := x })
  else if foldName key = "sent" then
    (storeInt64 e.Timestamp v).map (fun x => { e with Timestamp := x })
  else if foldName key = "attachments" then
    (storeA e.Attachments v).map (fun x => { e with Attachments := x })
  else if foldName key = "user" then
    (storeString e.UserID v).map (fun x => { e with UserID := x })
  else .ok e

/-- One member stored into an `ActionEvent`. -/
def ActionEvent.field (e : ActionEvent) (key : String) (v : Json) :
    Except JsonError ActionEvent :=
  if foldName key = "event" then (storeString e.Type_ v).map (fun x => { e with Type_ := x })
  else if foldName key = "tags" then
    (storeStringSlice e.Tags v).map (fun x => { e with Tags := x })
  else if foldName key = "id" then (storeInt64 e.ID v).map (fun x => { e with ID := x })
  else if foldName key = "flow" then (storeString e.Flow v).map (fun x => { e with Flow := x })
  else if foldName key = "content" then
    (storeInterface e.Content v).map (fun x => { e with Content := x })
  else if foldName key = "sent" then
    (storeInt64 e.Timestamp v).map (fun x => { e with Timestamp := x })
  else if foldName key = "attachments" then
    (storeStringSlice e.Attachments v).map (fun x => { e with Attachments := x })
  else if foldName key = "user" then
    (storeString e.UserID v).map (fun x => { e with UserID := x })
  else .ok e

/-- One member stored into the content of a `CommentEvent`. -/
def CommentContent.field (c : CommentContent) (key : String) (v : Json) :
    Except JsonError CommentContent :=
  if foldName key = "title" then (storeString c.Title v).map (fun x => { c with Title := x })
  else if foldName key = "text" then (storeString c.Text v).map (fun x => { c with Text := x })
  else .ok c

/-- One member stored into the content of a `TagChangeEvent`. -/
def TagChangeContent.field (c : TagChangeContent) (key : String) (v : Json) :
    Except JsonError TagChangeContent :=
  if foldName key = "add" then (storeStringSlice c.Added v).map (fun x => { c with Added := x })
  else if foldName key = "remove" then
    (storeStringSlice c.Removed v).map (fun x => { c with Removed := x })
  else if foldName key = "message" then
    (storeInt64 c.MessageID v).map (fun x => { c with MessageID := x })
  else .ok c

/-- One member stored into the content of a `MessageEditEvent`. -/
def MessageEditContent.field (c : MessageEditContent) (key : String) (v : Json) :
    Except JsonError MessageEditContent :=
  if foldName key = "updated_content" then
    (storeString c.UpdatedMessage v).map (fun x => { c with UpdatedMessage := x })
  else if foldName key = "message" then
    (storeInt64 c.MessageID v).map (fun x => { c with MessageID := x })
  else .ok c

/-- One member stored into the content of a `UserActivityEvent`. -/
def UserActivityContent.field (c : UserActivityContent) (key : String) (v : Json) :
    Except JsonError UserActivityContent :=
  if foldName key = "last_activity" then
    (storeInt64 c.LastActivityTimestamp v).map (fun x => { c with LastActivityTimestamp := x })
  else .ok c

/-- Storing a document into a `MessageEvent` or a `StatusEvent`. -/
def storeMessageEvent : MessageEvent → Json → Except JsonError MessageEvent :=
  storeStruct (EventRecord.field storeString storeStringSlice)

/-- Storing a document into a `CommentEvent`. -/
def storeCommentEvent : CommentEvent → Json → Except JsonError CommentEvent :=
  storeStruct (EventRecord.field (storeStruct CommentContent.field) storeStringSlice)

/-- Storing a document into a `TagChangeEvent`. -/
def storeTagChangeEvent : TagChangeEvent → Json → Except JsonError TagChangeEvent :=
  storeStruct (EventRecord.field (storeStruct TagChangeContent.field) storeStringSlice)

/-- Storing a document into a `MessageEditEvent`. -/
def storeMessageEditEvent : MessageEditEvent → Json → Except JsonError MessageEditEvent :=
  storeStruct (EventRecord.field (storeStruct MessageEditContent.field) storeStringSlice)

/-- Storing a document into a `UserActivityEvent`. -/
def storeUserActivityEvent : UserActivityEvent → Json → Except JsonError UserActivityEvent :=
  storeStruct (EventRecord.field (storeStruct UserActivityContent.field) storeStringSlice)

/-- Storing a document into a `FileEvent`. -/
def storeFileEvent : FileEvent → Json → Except JsonError FileEvent :=
  storeStruct (EventRecord.field storeMap storeMapSlice)

/-- Storing a document into an `ActionEvent`. -/
def storeActionEvent : ActionEvent → Json → Except JsonError ActionEvent :=
  storeStruct ActionEvent.field

/-- One arm of the `switch`: `err = json.Unmarshal(event, &e)`, then `return nil,
err` or `return e, nil`. -/
def unmarshalInto {T : Type} (scan : List UInt8 → Option Json)
    (store : T → Json → Except JsonError T) (event : List UInt8) (zero : T)
    (wrap : T → Event) : GoResult (Except JsonError Event) :=
  match Unmarshal scan store event zero with
  | .error err => .returned (.error err)
  | .ok e => .returned (.ok (wrap e))

/-- Model of `unmarshalFlowdockJSONEvent`.  The result `returned (error err)` is
the Go result `(nil, err)`, `returned (ok e)` is `(e, nil)`; the unchecked type
assertion `m["event"].(string)` panics when the key is absent or holds no string. -/
def unmarshalFlowdockJSONEvent (scan : List UInt8 → Option Json) (event : List UInt8) :
    GoResult (Except JsonError Event) :=
  match Unmarshal scan storeMap event [] with
  | .error err => .returned (.error err)
  | .ok m =>
    match GoMap.get? m "event" with
    | some (.string eventType) =>
      if eventType = "message" then
        unmarshalInto scan storeMessageEvent event (EventRecord.zero "" GoSlice.nil) Event.message
      else if eventType = "status" then
        unmarshalInto scan storeMessageEvent event (EventRecord.zero "" GoSlice.nil) Event.status
      else if eventType = "message-edit" then
        unmarshalInto scan storeMessageEditEvent event (EventRecord.zero ⟨"", 0⟩ GoSlice.nil)
          Event.messageEdit
      else if eventType = "comment" then
        unmarshalInto scan storeCommentEvent event (EventRecord.zero ⟨"", ""⟩ GoSlice.nil)
          Event.comment
      else if eventType = "tag-change" then
        unmarshalInto scan storeTagChangeEvent event
          (EventRecord.zero ⟨GoSlice.nil, GoSlice.nil, 0⟩ GoSlice.nil)
          Event.tagChange
      else if eventType = "activity.user" then
        unmarshalInto scan storeUserActivityEvent event (EventRecord.zero ⟨0⟩ GoSlice.nil)
          Event.userActivity
      else if eventType = "file" then
        unmarshalInto scan storeFileEvent event (EventRecord.zero [] GoSlice.nil) Event.file
      else
        unmarshalInto scan storeActionEvent event ActionEvent.zero Event.action
    | _ => .panicked

/-- Model of `FileEvent.FilePath`: the unchecked assertion `path.(string)` panics
when the stored value is not a string. -/
def FileEvent.FilePath (e : FileEvent) : GoResult String :=
  match GoMap.get? e.Content "path" with
  | some path =>
    match path with
    | .string s => .returned s
    | _ => .panicked
  | none => .returned ""

/-! ## Shapes of documents, in the spec's words -/

mutual
/-- Every number literal of the document is within the `float64` range. -/
def Json.numbersFit : Json → Bool
  | .null => true
  | .bool _ => true
  | .num n => !n.overflowsFloat64
  | .str _ => true
  | .arr elems => numbersFitList elems
  | .obj members => numbersFitMembers members
/-- Every number literal of the elements is within the `float64` range. -/
def numbersFitList : List Json → Bool
  | [] => true
  | x :: xs => x.numbersFit && numbersFitList xs
/-- Every number literal of the members is within the `float64` range. -/
def numbersFitMembers : List (String × Json) → Bool
  | [] => true
  | (_, x) :: rest => x.numbersFit && numbersFitMembers rest
end

/-- No two keys of the object are equal up to case folding. -/
def DistinctKeys (members : List (String × Json)) : Prop :=
  (members.map (fun kv => foldName kv.1)).Nodup

/-- The value is an integer literal within `int64`. -/
def IsInt64 (v : Int) : Prop :=
  -9223372036854775808 ≤ v ∧ v ≤ 9223372036854775807

/-- The member of an object under a field name: `some j` says that the object has the
member `name: j`, `none` that no key of the object is `name` up to case. -/
def FieldIs (members : List (String × Json)) (name : String) : Option Json → Prop
  | some j => (name, j) ∈ members
  | none => ∀ k v, (k, v) ∈ members → foldName k ≠ name

/-- The common envelope of an event object, in the spec's words: keys pairwise
distinct, and each of `tags` (an array of strings), `id` and `sent` (integers of
`int64`), `flow` and `user` (strings) either absent (`none`) or present with the
given value. -/
structure HasEnvelope (members : List (String × Json)) (tags : Option (List String))
    (id : Option Int) (flow : Option String) (sent : Option Int) (user : Option String) :
    Prop where
  distinct : DistinctKeys members
  tagsField : FieldIs members "tags" (tags.map (fun ts => Json.arr (ts.map Json.str)))
  idField : FieldIs members "id" (id.map (fun v => Json.num (JNumber.ofInt v)))
  idRange : ∀ v, id = some v → IsInt64 v
  flowField : FieldIs members "flow" (flow.map Json.str)
  sentField : FieldIs members "sent" (sent.map (fun v => Json.num (JNumber.ofInt v)))
  sentRange : ∀ v, sent = some v → IsInt64 v
  userField : FieldIs members "user" (user.map Json.str)

/-- The `float64` is exactly the number the literal denotes: same sign, significand
and exponent in the layout of binary64, and `mant * 2 ^ shift / 2 ^ 1074` equal to
the magnitude `numer / denom` of the literal. -/
def Float64.exactly (f : Float64) (n : JNumber) : Bool :=
  f.neg == n.neg && decide (f.mant < two53) && decide (f.shift ≤ 2045)
    && (decide (two52 ≤ f.mant) || decide (f.shift = 0))
    && decide (f.mant * natPow 2 f.shift * n.denom = n.numer * natPow 2 1074)

mutual
/-- The Go value is the document, unchanged: nil for `null`, the same boolean and
string, a `float64` that is exactly the number, a slice of the elements in order, and
a map holding the members of an object without repeated keys, in order. -/
def GoValue.represents : GoValue → Json → Bool
  | .nil, j =>
    match j with
    | .null => true
    | _ => false
  | .bool b, j =>
    match j with
    | .bool b' => b == b'
    | _ => false
  | .float64 f, j =>
    match j with
    | .num n => f.exactly n
    | _ => false
  | .string s, j =>
    match j with
    | .str s' => s == s'
    | _ => false
  | .slice vs, j =>
    match j with
    | .arr xs => representsList vs xs
    | _ => false
  | .map m, j =>
    match j with
    | .obj ms => decide ((ms.map Prod.fst).Nodup) && representsMembers m ms
    | _ => false
/-- The Go values are the documents, element by element. -/
def representsList : List GoValue → List Json → Bool
  | [], xs =>
    match xs with
    | [] => true
    | _ :: _ => false
  | v :: vs, xs =>
    match xs with
    | [] => false
    | x :: xs' => v.represents x && representsList vs xs'
/-- The entries are the members, key by key and value by value. -/
def representsMembers : List (String × GoValue) → List (String × Json) → Bool
  | [], ms =>
    match ms with
    | [] => true
    | _ :: _ => false
  | (k, v) :: m, ms =>
    match ms with
    | [] => false
    | (k', x) :: ms' => k == k' && v.represents x && representsMembers m ms'
end

/-- The wire tags that `unmarshalFlowdockJSONEvent` decodes into a typed struct. -/
def knownTags : List String :=
  ["message", "status", "message-edit", "comment", "tag-change", "activity.user", "file"]

/-- The attachments of a typed event other than a file event: absent, or an array
of strings. -/
def StringAttachments (members : List (String × Json)) (atts : Option (List String)) :
    Prop :=
  FieldIs members "attachments" (atts.map (fun l => Json.arr (l.map Json.str)))

/-- The attachments of a file event: absent (and then `atts` is empty), or an array
that the slice of maps `atts` represents unchanged. -/
def MapAttachments (members : List (String × Json)) (atts : List (GoMap GoValue)) :
    Prop :=
  (FieldIs members "attachments" none ∧ atts = [])
  ∨ ∃ j, FieldIs members "attachments" (some j)
      ∧ (GoValue.slice (atts.map GoValue.map)).represents j = true

/-- The typed event that the spec's table of wire tags assigns to an event object:
the variant of the tag, the envelope fields of the object (the Go zero value for an
absent one) and the content in the shape declared for the tag. -/
inductive TypedShape (members : List (String × Json)) : Event → Prop
  | message (tags : Option (List String)) (id : Option Int) (flow : Option String)
      (sent : Option Int) (user : Option String) (content : String)
      (atts : Option (List String)) :
      HasEnvelope members tags id flow sent user →
      ("event", Json.str "message") ∈ members →
      ("content", Json.str content) ∈ members →
      StringAttachments members atts →
      TypedShape members (.message ⟨.ofList (tags.getD []), id.getD 0, flow.getD "", content,
        sent.getD 0, .ofList (atts.getD []), user.getD ""⟩)
  | status (tags : Option (List String)) (id : Option Int) (flow : Option String)
      (sent : Option Int) (user : Option String) (content : String)
      (atts : Option (List String)) :
      HasEnvelope members tags id flow sent user →
      ("event", Json.str "status") ∈ members →
      ("content", Json.str content) ∈ members →
      StringAttachments members atts →
      TypedShape members (.status ⟨.ofList (tags.getD []), id.getD 0, flow.getD "", content,
        sent.getD 0, .ofList (atts.getD []), user.getD ""⟩)
  | comment (tags : Option (List String)) (id : Option Int) (flow : Option String)
      (sent : Option Int) (user : Option String) (cm : List (String × Json))
      (title text : String) (atts : Option (List String)) :
      HasEnvelope members tags id flow sent user →
      ("event", Json.str "comment") ∈ members →
      ("content", Json.obj cm) ∈ members →
      DistinctKeys cm →
      ("title", Json.str title) ∈ cm →
      ("text", Json.str text) ∈ cm →
      StringAttachments members atts →
      TypedShape members (.comment ⟨.ofList (tags.getD []), id.getD 0, flow.getD "",
        ⟨title, text⟩, sent.getD 0, .ofList (atts.getD []), user.getD ""⟩)
  | messageEdit (tags : Option (List String)) (id : Option Int) (flow : Option String)
      (sent : Option Int) (user : Option String) (cm : List (String × Json))
      (updated : String) (message : Int) (atts : Option (List String)) :
      HasEnvelope members tags id flow sent user →
      ("event", Json.str "message-edit") ∈ members →
      ("content", Json.obj cm) ∈ members →
      DistinctKeys cm →
      ("updated_content", Json.str updated) ∈ cm →
      ("message", Json.num (JNumber.ofInt message)) ∈ cm →
      IsInt64 message →
      StringAttachments members atts →
      TypedShape members (.messageEdit ⟨.ofList (tags.getD []), id.getD 0, flow.getD "",
        ⟨updated, message⟩, sent.getD 0, .ofList (atts.getD []), user.getD ""⟩)
  | tagChange (tags : Option (List String)) (id : Option Int) (flow : Option String)
      (sent : Option Int) (user : Option String) (cm : List (String × Json))
      (added removed : List String) (message : Int) (atts : Option (List String)) :
      HasEnvelope members tags id flow sent user →
      ("event", Json.str "tag-change") ∈ members →
      ("content", Json.obj cm) ∈ members →
      DistinctKeys cm →
      ("add", Json.arr (added.map Json.str)) ∈ cm →
      ("remove", Json.arr (removed.map Json.str)) ∈ cm →
      ("message", Json.num (JNumber.ofInt message)) ∈ cm →
      IsInt64 message →
      StringAttachments members atts →
      TypedShape members (.tagChange ⟨.ofList (tags.getD []), id.getD 0, flow.getD "",
        ⟨.ofList added, .ofList removed, message⟩, sent.getD 0, .ofList (atts.getD []),
        user.getD ""⟩)
  | userActivity (tags : Option (List String)) (id : Option Int) (flow : Option String)
      (sent : Option Int) (user : Option String) (cm : List (String × Json))
      (last : Int) (atts : Option (List String)) :
      HasEnvelope members tags id flow sent user →
      ("event", Json.str "activity.user") ∈ members →
      ("content", Json.obj cm) ∈ members →
      DistinctKeys cm →
      ("last_activity", Json.num (JNumber.ofInt last)) ∈ cm →
      IsInt64 last →
      StringAttachments members atts →
      TypedShape members (.userActivity ⟨.ofList (tags.getD []), id.getD 0, flow.getD "",
        ⟨last⟩, sent.getD 0, .ofList (atts.getD []), user.getD ""⟩)
  | file (tags : Option (List String)) (id : Option Int) (flow : Option String)
      (sent : Option Int) (user : Option String) (cj : Json)
      (content : GoMap GoValue) (atts : List (GoMap GoValue)) :
      HasEnvelope members tags id flow sent user →
      ("event", Json.str "file") ∈ members →
      ("content", cj) ∈ members →
      (GoValue.map content).represents cj = true →
      MapAttachments members atts →
      TypedShape members (.file ⟨.ofList (tags.getD []), id.getD 0, flow.getD "", content,
        sent.getD 0, .ofList atts, user.getD ""⟩)

/-! ## A reference scanner

The scanner of `encoding/json` on bytes: the grammar of RFC 8259 with nesting up to
10000 levels, strings unquoted as `encoding/json` does (escapes resolved, UTF-8
decoded, a lone surrogate or an invalid byte replaced by U+FFFD).  It is used to run
the decoder on concrete texts; the theorems below hold for every scanner. -/

/-- The value of a string of decimal digit bytes. -/
def digitsNat (l : List Nat) : Nat :=
  l.foldl (fun a b => a * 10 + (b - 48)) 0

/-- Skipping JSON white space: space, line feed, carriage return, tab. -/
def skipSpace : List Nat → List Nat
  | [] => []
  | b :: bs => if b = 32 ∨ b = 10 ∨ b = 13 ∨ b = 9 then skipSpace bs else b :: bs

/-- The replacement character U+FFFD. -/
def runeError : Char := Char.ofNat 0xFFFD

/-- Model of `utf8.DecodeRune` on a non-empty input: the rune at the head and the
bytes after it; an invalid or truncated sequence gives U+FFFD and takes one byte. -/
def decodeRune (b0 : Nat) (rest : List Nat) : Char × List Nat :=
  if b0 < 0x80 then (Char.ofNat b0, rest)
  else if 0xC2 ≤ b0 ∧ b0 ≤ 0xDF then
    match rest with
    | b1 :: rest1 =>
      if 0x80 ≤ b1 ∧ b1 ≤ 0xBF then (Char.ofNat ((b0 - 0xC0) * 64 + (b1 - 0x80)), rest1)
      else (runeError, rest)
    | _ => (runeError, rest)
  else if 0xE0 ≤ b0 ∧ b0 ≤ 0xEF then
    match rest with
    | b1 :: b2 :: rest2 =>
      if (if b0 = 0xE0 then 0xA0 else 0x80) ≤ b1 ∧ b1 ≤ (if b0 = 0xED then 0x9F else 0xBF)
          ∧ 0x80 ≤ b2 ∧ b2 ≤ 0xBF then
        (Char.ofNat ((b0 - 0xE0) * 4096 + (b1 - 0x80) * 64 + (b2 - 0x80)), rest2)
      else (runeError, rest)
    | _ => (runeError, rest)
  else if 0xF0 ≤ b0 ∧ b0 ≤ 0xF4 then
    match rest with
    | b1 :: b2 :: b3 :: rest3 =>
      if (if b0 = 0xF0 then 0x90 else 0x80) ≤ b1 ∧ b1 ≤ (if b0 = 0xF4 then 0x8F else 0xBF)
          ∧ 0x80 ≤ b2 ∧ b2 ≤ 0xBF ∧ 0x80 ≤ b3 ∧ b3 ≤ 0xBF then
        (Char.ofNat ((b0 - 0xF0) * 262144 + (b1 - 0x80) * 4096 + (b2 - 0x80) * 64
          + (b3 - 0x80)), rest3)
      else (runeError, rest)
    | _ => (runeError, rest)
  else (runeError, rest)

/-- The value of a hexadecimal digit byte. -/
def hexValue (b : Nat) : Option Nat :=
  if 48 ≤ b ∧ b ≤ 57 then some (b - 48)
  else if 97 ≤ b ∧ b ≤ 102 then some (b - 87)
  else if 65 ≤ b ∧ b ≤ 70 then some (b - 55)
  else none

/-- Model of `getu4` after the `\u`: the value of four hexadecimal digits and the
bytes after them. -/
def hex4 : List Nat → Option (Nat × List Nat)
  | b0 :: b1 :: b2 :: b3 :: rest =>
    match hexValue b0, hexValue b1, hexValue b2, hexValue b3 with
    | some h0, some h1, some h2, some h3 => some (h0 * 4096 + h1 * 256 + h2 * 16 + h3, rest)
    | _, _, _, _ => none
  | _ => none

/-- The low surrogate of a `\uXXXX` escape that directly follows, if there is one. -/
def lowSurrogate : List Nat → Option (Nat × List Nat)
  | 92 :: 117 :: rest =>
    match hex4 rest with
    | some (u, rest') => if 0xDC00 ≤ u ∧ u < 0xE000 then some (u, rest') else none
    | none => none
  | _ => none

/-- The characters of a string literal after its opening quote, up to the closing
quote, unquoted; `acc` holds the characters read so far, last first, and `fuel` bounds
the number of characters. -/
def scanString : Nat → List Nat → List Char → Option (String × List Nat)
  | 0, _, _ => none
  | _ + 1, [], _ => none
  | fuel + 1, b :: rest, acc =>
    if b = 34 then some (String.mk acc.reverse, rest)
    else if b = 92 then
      match rest with
      | [] => none
      | e :: rest' =>
        if e = 34 ∨ e = 92 ∨ e = 47 then scanString fuel rest' (Char.ofNat e :: acc)
        else if e = 98 then scanString fuel rest' (Char.ofNat 8 :: acc)
        else if e = 102 then scanString fuel rest' (Char.ofNat 12 :: acc)
        else if e = 110 then scanString fuel rest' (Char.ofNat 10 :: acc)
        else if e = 114 then scanString fuel rest' (Char.ofNat 13 :: acc)
        else if e = 116 then scanString fuel rest' (Char.ofNat 9 :: acc)
        else if e = 117 then
          match hex4 rest' with
          | none => none
          | some (u, rest2) =>
            if 0xD800 ≤ u ∧ u < 0xDC00 then
              match lowSurrogate rest2 with
              | some (lo, rest3) =>
                scanString fuel rest3
                  (Char.ofNat (0x10000 + (u - 0xD800) * 1024 + (lo - 0xDC00)) :: acc)
              | none => scanString fuel rest2 (runeError :: acc)
            else if 0xDC00 ≤ u ∧ u < 0xE000 then scanString fuel rest2 (runeError :: acc)
            else scanString fuel rest2 (Char.ofNat u :: acc)
        else none
    else if b < 32 then none
    else scanString fuel (decodeRune b rest).2 ((decodeRune b rest).1 :: acc)

/-- The leading decimal digits of the input and what follows them. -/
def spanDigits : List Nat → List Nat × List Nat
  | [] => ([], [])
  | b :: bs =>
    if 48 ≤ b ∧ b ≤ 57 then ((spanDigits bs).1.cons b, (spanDigits bs).2)
    else ([], b :: bs)

/-- The optional exponent part of a number literal: its value and what follows. -/
def scanExponent (bs : List Nat) : Option (Option Int × List Nat) :=
  match bs with
  | b :: rest =>
    if b = 101 ∨ b = 69 then
      let (neg, rest) := match rest with
        | 45 :: r => (true, r)
        | 43 :: r => (false, r)
        | r => (false, r)
      match spanDigits rest with
      | ([], _) => none
      | (ds, rest) => some (some (if neg then -(digitsNat ds : Int) else digitsNat ds), rest)
    else some (none, bs)
  | [] => some (none, [])

/-- A number literal: an optional minus sign, an integer part without a leading zero,
an optional fraction and an optional exponent. -/
def scanNumber (bs : List Nat) : Option (JNumber × List Nat) :=
  let (neg, bs) := match bs with
    | 45 :: r => (true, r)
    | r => (false, r)
  match spanDigits bs with
  | ([], _) => none
  | (ip, rest) =>
    if ip.length > 1 ∧ ip.head? = some 48 then none
    else
      let fracPart : Option (List Nat × List Nat) := match rest with
        | 46 :: r =>
          match spanDigits r with
          | ([], _) => none
          | (fs, r') => some (fs, r')
        | r => some ([], r)
      match fracPart with
      | none => none
      | some (fs, rest) =>
        match scanExponent rest with
        | none => none
        | some (ex, rest) =>
          if fs = [] ∧ ex = none then some (.int neg (digitsNat ip), rest)
          else some (.real neg (digitsNat (ip ++ fs)) (ex.getD 0 - fs.length), rest)

/-- The input after the given bytes, when it starts with them. -/
def dropPrefix : List Nat → List Nat → Option (List Nat)
  | [], bs => some bs
  | _ :: _, [] => none
  | p :: ps, b :: bs => if p = b then dropPrefix ps bs else none

mutual
/-- A JSON value at nesting depth `depth`, with `fuel` bounding the number of values
and separators read. -/
def scanValue : Nat → Nat → List Nat → Option (Json × List Nat)
  | 0, _, _ => none
  | fuel + 1, depth, bs =>
    match skipSpace bs with
    | [] => none
    | b :: rest =>
      if b = 123 then
        if 10000 ≤ depth then none
        else
          match skipSpace rest with
          | 125 :: rest' => some (.obj [], rest')
          | _ =>
            match scanMembers fuel (depth + 1) rest with
            | some (ms, rest') => some (.obj ms, rest')
            | none => none
      else if b = 91 then
        if 10000 ≤ depth then none
        else
          match skipSpace rest with
          | 93 :: rest' => some (.arr [], rest')
          | _ =>
            match scanElements fuel (depth + 1) rest with
            | some (xs, rest') => some (.arr xs, rest')
            | none => none
      else if b = 34 then
        match scanString (rest.length + 1) rest [] with
        | some (s, rest') => some (.str s, rest')
        | none => none
      else if b = 116 then
        match dropPrefix [114, 117, 101] rest with
        | some rest' => some (.bool true, rest')
        | none => none
      else if b = 102 then
        match dropPrefix [97, 108, 115, 101] rest with
        | some rest' => some (.bool false, rest')
        | none => none
      else if b = 110 then
        match dropPrefix [117, 108, 108] rest with
        | some rest' => some (.null, rest')
        | none => none
      else
        match scanNumber (b :: rest) with
        | some (n, rest') => some (.num n, rest')
        | none => none
/-- The elements of a non-empty array up to and including the closing bracket. -/
def scanElements : Nat → Nat → List Nat → Option (List Json × List Nat)
  | 0, _, _ => none
  | fuel + 1, depth, bs =>
    match scanValue fuel depth bs with
    | none => none
    | some (x, rest) =>
      match skipSpace rest with
      | 93 :: rest' => some ([x], rest')
      | 44 :: rest' =>
        match scanElements fuel depth rest' with
        | some (xs, rest'') => some (x :: xs, rest'')
        | none => none
      | _ => none
/-- The members of a non-empty object up to and including the closing brace. -/
def scanMembers : Nat → Nat → List Nat → Option (List (String × Json) × List Nat)
  | 0, _, _ => none
  | fuel + 1, depth, bs =>
    match skipSpace bs with
    | 34 :: rest =>
      match scanString (rest.length + 1) rest [] with
      | none => none
      | some (k, rest) =>
        match skipSpace rest with
        | 58 :: rest =>
          match scanValue fuel depth rest with
          | none => none
          | some (x, rest) =>
            match skipSpace rest with
            | 125 :: rest' => some ([(k, x)], rest')
            | 44 :: rest' =>
              match scanMembers fuel depth rest' with
              | some (ms, rest'') => some ((k, x) :: ms, rest'')
              | none => none
            | _ => none
        | _ => none
    | _ => none
end

/-- The reference scanner: the document of a text that is one JSON value between
optional white space, `none` for any other text. -/
def scanJSON (data : List UInt8) : Option Json :=
  match scanValue (data.length + 1) 0 (data.map (fun b => b.toNat)) with
  | some (doc, rest) => if skipSpace rest = [] then some doc else none
  | none => none

/-- The bytes of an ASCII text. -/
def bytesOf (s : String) : List UInt8 := s.data.map (fun c => UInt8.ofNat c.toNat)

/-! ## Theorems -/

/-! ### Decimal formatting -/

theorem digitChar_toNat (d : Nat) (h : d < 10) : (Nat.digitChar d).toNat - 48 = d := by
  interval_cases d <;> rfl

theorem digitChar_ne_minus (d : Nat) (h : d < 10) : Nat.digitChar d ≠ '-' := by
  interval_cases d <;> decide

theorem formatBits_append (fuel n : Nat) (acc : List Char) :
    formatBits fuel n acc = formatBits fuel n [] ++ acc := by
  induction fuel generalizing n acc with
  | zero => simp [formatBits]
  | succ fuel ih =>
    simp only [formatBits]
    split
    · simp
    · rw [ih, ih (n / 10) [_]]; simp

theorem digitsValue_append_singleton (l : List Char) (c : Char) :
    digitsValue (l ++ [c]) = digitsValue l * 10 + (c.toNat - 48) := by
  simp [digitsValue, List.foldl_append]

theorem digitsValue_formatBits (fuel n : Nat) (h : n < fuel) :
    digitsValue (formatBits fuel n []) = n := by
  induction fuel generalizing n with
  | zero => omega
  | succ fuel ih =>
    simp only [formatBits]
    split
    · rename_i h10
      simp [digitsValue, digitChar_toNat n h10]
    · rename_i h10
      rw [formatBits_append, digitsValue_append_singleton, ih (n / 10) (by omega),
        digitChar_toNat _ (Nat.mod_lt _ (by decide))]
      omega

theorem formatBits_head (fuel n : Nat) (h : n < fuel) :
    ∃ c rest, formatBits fuel n [] = c :: rest ∧ c ≠ '-' := by
  induction fuel generalizing n with
  | zero => omega
  | succ fuel ih =>
    simp only [formatBits]
    split
    · rename_i h10
      exact ⟨_, _, rfl, digitChar_ne_minus n h10⟩
    · obtain ⟨c, rest, hc, hne⟩ := ih (n / 10) (by omega)
      refine ⟨c, rest ++ [Nat.digitChar (n % 10)], ?_, hne⟩
      rw [formatBits_append, hc]; simp

theorem parseInt_formatInt (i : Int) : parseInt (formatInt i) = i := by
  unfold formatInt
  split
  · rename_i hneg
    have : ("-" ++ formatNat i.natAbs).data = '-' :: formatBits (i.natAbs + 1) i.natAbs [] := by
      simp [formatNat]
    simp only [parseInt, this, digitsValue_formatBits _ _ (Nat.lt_succ_self _)]
    omega
  · rename_i hneg
    obtain ⟨c, rest, hc, hne⟩ := formatBits_head (i.natAbs + 1) i.natAbs (Nat.lt_succ_self _)
    have hv := digitsValue_formatBits _ _ (Nat.lt_succ_self i.natAbs)
    simp only [parseInt, formatNat]
    rw [hc] at hv ⊢
    split
    · rename_i heq; cases heq; exact absurd rfl hne
    · rename_i l' heq; rw [hv]; omega

theorem formatInt_injective : Function.Injective formatInt := fun a b h => by
  have := congrArg parseInt h
  rwa [parseInt_formatInt, parseInt_formatInt] at this

/-! ### The stream URL -/

theorem intercalate_go_append (x acc s : String) (l : List String) :
    String.intercalate.go (x ++ acc) s l = x ++ String.intercalate.go acc s l := by
  induction l generalizing acc with
  | nil => simp [String.intercalate.go]
  | cons a l ih =>
    simp only [String.intercalate.go]
    rw [String.append_assoc, String.append_assoc, ← String.append_assoc acc, ih]

theorem intercalate_cons_cons (s a b : String) (l : List String) :
    String.intercalate s (a :: b :: l) = a ++ s ++ String.intercalate s (b :: l) := by
  simp only [String.intercalate, String.intercalate.go]
  have h := intercalate_go_append (a ++ s) b s l
  rw [h]

theorem flowStreamURL_loop_eq (len : Nat) (rest : List Flow) :
    ∀ (i : Nat) (flowURL : String), i + rest.length = len →
      flowStreamURL.loop len i rest flowURL
        = flowURL ++ String.intercalate "," (rest.map filterPair) := by
  induction rest with
  | nil => intro i flowURL _; simp [flowStreamURL.loop, String.intercalate]
  | cons flow rest ih =>
    intro i flowURL h
    simp only [List.length_cons] at h
    cases rest with
    | nil =>
      have hi : (i : Int) = (len : Int) - 1 := by simp at h; omega
      simp [flowStreamURL.loop, hi, String.intercalate, String.intercalate.go, filterPair,
        String.append_assoc]
    | cons flow2 rest2 =>
      have hi : ¬ ((i : Int) = (len : Int) - 1) := by simp at h; omega
      have hrec := ih (i + 1)
        (flowURL ++ flow.Organization.APIName ++ "/" ++ flow.APIName ++ ",")
        (by simp at h ⊢; omega)
      have hrhs : String.intercalate "," ((flow :: flow2 :: rest2).map filterPair)
          = filterPair flow ++ "," ++ String.intercalate "," ((flow2 :: rest2).map filterPair) := by
        simp only [List.map_cons, intercalate_cons_cons]
      rw [flowStreamURL.loop, if_neg hi, hrec, hrhs]
      simp [filterPair, String.append_assoc]

/-- C5: `flowStreamURL` on an explicit flow list returns the stream prefix followed
by the `org/flow` pairs of the flows in list order, joined by a single comma with no
leading or trailing comma; for (orgA,flow1),(orgA,flow2),(orgB,flow3) the tail is
`orgA/flow1,orgA/flow2,orgB/flow3`. -/
theorem flowStreamURL_explicit (c : Client) (flow : Flow) (flows : List Flow) :
    flowStreamURL c (some (flow :: flows))
        = "https://stream.flowdock.com/flows?filter="
          ++ String.intercalate "," ((flow :: flows).map filterPair)
    ∧ flowStreamURL c
        (some [mkFlow "1" "orgA" "flow1", mkFlow "2" "orgA" "flow2", mkFlow "3" "orgB" "flow3"])
        = "https://stream.flowdock.com/flows?filter=" ++ "orgA/flow1,orgA/flow2,orgB/flow3" := by
  constructor
  · exact flowStreamURL_loop_eq _ _ 0 _ (by simp)
  · show flowStreamURL.loop 3 0
        [mkFlow "1" "orgA" "flow1", mkFlow "2" "orgA" "flow2", mkFlow "3" "orgB" "flow3"]
        "https://stream.flowdock.com/flows?filter=" = _
    decide

/-- C6 (as stated, refuted): with an empty but non-nil flow list the URL of
`flowStreamURL`, and hence of `Connect`, is the bare prefix, not the URL over the
client's known flows. -/
theorem flowStreamURL_empty_list_not_all :
    flowStreamURL ⟨"key", [], [mkFlow "1" "orgA" "flow1"], []⟩ (some [])
        = "https://stream.flowdock.com/flows?filter="
    ∧ flowStreamURL ⟨"key", [], [mkFlow "1" "orgA" "flow1"], []⟩ (some [])
        ≠ flowStreamURL ⟨"key", [], [mkFlow "1" "orgA" "flow1"], []⟩
            (some [mkFlow "1" "orgA" "flow1"])
    ∧ Connect.flowURL ⟨"key", [], [mkFlow "1" "orgA" "flow1"], []⟩ (some [])
        ≠ "https://stream.flowdock.com/flows?filter=" ++ "orgA/flow1" := by
  decide

/-- C6 (amended): with the nil flow list `flowStreamURL`, and hence `Connect`, uses the
URL built from all of the client's known flows, while an empty non-nil list gives the
bare prefix. -/
theorem flowStreamURL_nil_all (c : Client) :
    flowStreamURL c none = flowStreamURL c (some c.availableFlows)
    ∧ Connect.flowURL c none = flowStreamURL c (some c.availableFlows)
    ∧ flowStreamURL c none
        = "https://stream.flowdock.com/flows?filter="
          ++ String.intercalate "," (c.availableFlows.map filterPair)
    ∧ flowStreamURL c (some []) = "https://stream.flowdock.com/flows?filter=" := by
  refine ⟨rfl, rfl, ?_, rfl⟩
  exact flowStreamURL_loop_eq _ _ 0 _ (by simp)

/-! ### The user map -/

theorem GoMap.get?_set {V : Type} (m : GoMap V) (k k' : String) (v : V) :
    (m.set k v).get? k' = if k = k' then some v else m.get? k' := by
  induction m with
  | nil => simp [GoMap.set, GoMap.get?]
  | cons p rest ih =>
    obtain ⟨a, b⟩ := p
    simp only [GoMap.set]
    by_cases hak : a = k
    · subst hak
      by_cases hk : a = k' <;> simp [GoMap.get?, hk]
    · simp only [hak, if_false, GoMap.get?, ih]
      by_cases hk : a = k'
      · subst hk
        simp [Ne.symm hak]
      · simp [hk]

theorem GoMap.mem_keys_set {V : Type} (m : GoMap V) (k k' : String) (v : V) :
    k' ∈ (m.set k v).keys ↔ k' = k ∨ k' ∈ m.keys := by
  induction m with
  | nil => simp [GoMap.set, GoMap.keys]
  | cons p rest ih =>
    obtain ⟨a, b⟩ := p
    simp only [GoMap.keys] at ih
    simp only [GoMap.set, GoMap.keys]
    by_cases hak : a = k
    · subst hak; simp
    · simp only [hak, if_false, List.map_cons, List.mem_cons, ih]
      tauto

theorem GoMap.nodup_keys_set {V : Type} (m : GoMap V) (k : String) (v : V)
    (h : m.keys.Nodup) : (m.set k v).keys.Nodup := by
  induction m with
  | nil => simp [GoMap.set, GoMap.keys]
  | cons p rest ih =>
    obtain ⟨a, b⟩ := p
    simp only [GoMap.keys, List.map_cons, List.nodup_cons] at h
    simp only [GoMap.set]
    by_cases hak : a = k
    · subst hak
      simpa [GoMap.keys] using h
    · simp only [hak, if_false]
      have hmem := GoMap.mem_keys_set rest k a v
      have hnd := ih h.2
      simp only [GoMap.keys] at hmem hnd
      simp only [GoMap.keys, List.map_cons, List.nodup_cons]
      refine ⟨?_, hnd⟩
      rw [hmem]
      rintro (h1 | h1)
      · exact hak h1
      · exact h.1 h1

theorem getUsers_loop_mem_keys (users : List User) (m : GoMap User) (k : String) :
    k ∈ (getUsers.loop users m).keys ↔ k ∈ m.keys ∨ ∃ u ∈ users, formatInt u.ID = k := by
  induction users generalizing m with
  | nil => simp [getUsers.loop]
  | cons user rest ih =>
    simp only [getUsers.loop, ih, GoMap.mem_keys_set, List.mem_cons, exists_eq_or_imp]
    constructor
    · rintro ((h | h) | h)
      · exact Or.inr (Or.inl h.symm)
      · exact Or.inl h
      · exact Or.inr (Or.inr h)
    · rintro (h | h | h)
      · exact Or.inl (Or.inr h)
      · exact Or.inl (Or.inl h.symm)
      · exact Or.inr h

theorem getUsers_loop_nodup (users : List User) (m : GoMap User) (h : m.keys.Nodup) :
    (getUsers.loop users m).keys.Nodup := by
  induction users generalizing m with
  | nil => simpa [getUsers.loop] using h
  | cons user rest ih =>
    simp only [getUsers.loop]
    exact ih _ (GoMap.nodup_keys_set m _ _ h)

theorem getUsers_loop_get? (users : List User) (m : GoMap User) (k : String) (u : User)
    (h : (getUsers.loop users m).get? k = some u) :
    (u ∈ users ∧ formatInt u.ID = k) ∨ m.get? k = some u := by
  induction users generalizing m with
  | nil => exact Or.inr (by simpa [getUsers.loop] using h)
  | cons user rest ih =>
    simp only [getUsers.loop] at h
    rcases ih _ h with h1 | h1
    · exact Or.inl ⟨List.mem_cons_of_mem _ h1.1, h1.2⟩
    · rw [GoMap.get?_set] at h1
      split at h1
      · rename_i hk
        cases h1
        exact Or.inl ⟨List.mem_cons_self _ _, hk⟩
      · exact Or.inr h1

theorem getUsers_build_len (users : List User) :
    (getUsers.build users).len = ((users.map (fun u => u.ID)).dedup).length := by
  have hnd := getUsers_loop_nodup users [] (by simp [GoMap.keys])
  have hmap : (((users.map (fun u => u.ID)).dedup).map formatInt).Nodup :=
    (List.nodup_dedup _).map formatInt_injective
  have hperm : (getUsers.loop users []).keys.Perm
      (((users.map (fun u => u.ID)).dedup).map formatInt) := by
    rw [List.perm_ext_iff_of_nodup hnd hmap]
    intro k
    rw [getUsers_loop_mem_keys]
    simp [GoMap.keys]
  have := hperm.length_eq
  simpa [GoMap.keys, GoMap.len, getUsers.build] using this

/-- C7 (as stated, refuted): two users that carry the same id give a map of size 1,
not of the array's length 2. -/
theorem getUsers_size_duplicate_id :
    (getUsers.build [⟨7, "ann", "", "", "", 0, 0, ""⟩, ⟨7, "bob", "", "", "", 0, 0, ""⟩]).len = 1
    ∧ [(⟨7, "ann", "", "", "", 0, 0, ""⟩ : User), ⟨7, "bob", "", "", "", 0, 0, ""⟩].length = 2 := by
  decide

/-- C7 (amended): the key set of the map built by `getUsers` is exactly the decimal
string forms of the ids in the array, each key maps to a user of the array whose id
formats to that key, distinct ids never share a key, and the map's size equals the
number of distinct ids in the array (the array's length when its ids are pairwise
distinct). -/
theorem getUsers_map_keys (users : List User) :
    (∀ k, k ∈ (getUsers.build users).keys ↔ ∃ u ∈ users, formatInt u.ID = k)
    ∧ (∀ k u, (getUsers.build users).get? k = some u → u ∈ users ∧ formatInt u.ID = k)
    ∧ (∀ u ∈ users, ∀ v ∈ users, u.ID ≠ v.ID → formatInt u.ID ≠ formatInt v.ID)
    ∧ (getUsers.build users).len = ((users.map (fun u => u.ID)).dedup).length
    ∧ ((users.map (fun u => u.ID)).Nodup → (getUsers.build users).len = users.length) := by
  refine ⟨fun k => ?_, fun k u h => ?_, fun u _ v _ hne heq => hne (formatInt_injective heq),
    getUsers_build_len users, fun hnd => ?_⟩
  · simpa [GoMap.keys] using getUsers_loop_mem_keys users [] k
  · rcases getUsers_loop_get? users [] k u h with h1 | h1
    · exact h1
    · simp [GoMap.get?] at h1
  · rw [getUsers_build_len, hnd.dedup, List.length_map]

/-! ### Lookups -/

theorem DetailsForFlow_loop_none (id : String) (flows : List Flow) :
    DetailsForFlow.loop id flows = none ↔ ∀ flow ∈ flows, flow.ID ≠ id := by
  induction flows with
  | nil => simp [DetailsForFlow.loop]
  | cons flow rest ih =>
    simp only [DetailsForFlow.loop, List.mem_cons, forall_eq_or_imp]
    split
    · rename_i h; simp [h]
    · rename_i h; simp [h, ih]

theorem DetailsForFlow_loop_some (id : String) (flows : List Flow) (flow : Flow) :
    DetailsForFlow.loop id flows = some flow ↔
      ∃ pre post, flows = pre ++ flow :: post ∧ (∀ g ∈ pre, g.ID ≠ id) ∧ flow.ID = id := by
  induction flows with
  | nil => simp [DetailsForFlow.loop]
  | cons f rest ih =>
    simp only [DetailsForFlow.loop]
    split
    · rename_i h
      constructor
      · intro heq
        cases heq
        exact ⟨[], rest, rfl, by simp, h⟩
      · rintro ⟨pre, post, hl, hpre, _⟩
        cases pre with
        | nil => simp at hl; rw [hl.1]
        | cons g pre =>
          simp at hl
          exact absurd h (hl.1 ▸ hpre g (List.mem_cons_self _ _))
    · rename_i h
      rw [ih]
      constructor
      · rintro ⟨pre, post, hl, hpre, hid⟩
        refine ⟨f :: pre, post, by simp [hl], ?_, hid⟩
        intro g hg
        rcases List.mem_cons.mp hg with rfl | hg
        · exact h
        · exact hpre g hg
      · rintro ⟨pre, post, hl, hpre, hid⟩
        cases pre with
        | nil => simp at hl; exact absurd hid (hl.1 ▸ h)
        | cons g pre =>
          simp at hl
          exact ⟨pre, post, hl.2, fun x hx => hpre x (List.mem_cons_of_mem _ hx), hid⟩

/-- C10: `DetailsForFlow` returns nil exactly when no flow in `availableFlows` has
the given ID, and otherwise the first flow in list order whose ID equals it;
`DetailsForUser` returns the user stored under the key in the user map. -/
theorem details_lookup (c : Client) (id : String) :
    (DetailsForFlow c id = none ↔ ∀ flow ∈ c.availableFlows, flow.ID ≠ id)
    ∧ (∀ flow, DetailsForFlow c id = some flow ↔
        ∃ pre post, c.availableFlows = pre ++ flow :: post
          ∧ (∀ g ∈ pre, g.ID ≠ id) ∧ flow.ID = id)
    ∧ (∀ u, c.users.get? id = some u → DetailsForUser c id = u) := by
  refine ⟨DetailsForFlow_loop_none id _, fun flow => DetailsForFlow_loop_some id _ flow, ?_⟩
  intro u hu
  simp [DetailsForUser, hu]

/-! ### Rounding to `float64` -/

theorem natPowFuel_eq (fuel : Nat) : ∀ b n, n ≤ fuel → natPowFuel fuel b n = b ^ n := by
  induction fuel with
  | zero => intro b n h; obtain rfl : n = 0 := by omega
            simp [natPowFuel]
  | succ fuel ih =>
    intro b n h
    simp only [natPowFuel]
    by_cases hn : n = 0
    · simp [hn]
    · have hhalf : n / 2 ≤ fuel := by omega
      rw [if_neg hn, ih (b * b) (n / 2) hhalf]
      have hsq : (b * b) ^ (n / 2) = b ^ (2 * (n / 2)) := by
        rw [pow_mul, pow_two]
      by_cases hodd : n % 2 = 1
      · rw [if_pos hodd, hsq, ← pow_succ']
        congr 1; omega
      · rw [if_neg hodd, hsq]
        congr 1; omega

theorem natPow_eq (b n : Nat) : natPow b n = b ^ n :=
  natPowFuel_eq n b n le_rfl

theorem JNumber.denom_pos (n : JNumber) : 0 < n.denom := by
  cases n with
  | int neg a => simp [JNumber.denom]
  | real neg m e =>
    simp only [JNumber.denom]
    split
    · exact Nat.one_pos
    · rw [natPow_eq]; positivity

theorem two53_eq : two53 = 2 ^ 53 := by norm_num [two53]

theorem two52_eq : two52 = 2 ^ 52 := by norm_num [two52]

theorem float64Limit_eq : float64Limit = 2 ^ 1024 - 2 ^ 970 := by
  norm_num [float64Limit]

theorem findShift_spec (a b : Nat) (steps : List Nat) :
    ∀ s, (∀ s', s' < s → ¬ a < b * 2 ^ s') →
      (∀ i, ∀ h : i < steps.length, steps.get ⟨i, h⟩ = (steps.drop (i + 1)).sum + 1) →
      (∀ s', s' < findShift a b steps s → ¬ a < b * 2 ^ s')
      ∧ (a < b * 2 ^ (findShift a b steps s) ∨ findShift a b steps s = s + steps.sum) := by
  induction steps with
  | nil => intro s h _; exact ⟨by simpa [findShift] using h, Or.inr (by simp [findShift])⟩
  | cons step rest ih =>
    intro s h hstep
    have hs : step = rest.sum + 1 := by simpa using hstep 0 (by simp)
    have hrest : ∀ i, ∀ h : i < rest.length,
        rest.get ⟨i, h⟩ = (rest.drop (i + 1)).sum + 1 := by
      intro i hi
      simpa using hstep (i + 1) (by simpa using hi)
    simp only [findShift, natPow_eq]
    have hidx : s + step - 1 = s + rest.sum := by omega
    rw [hidx]
    by_cases hp : a < b * 2 ^ (s + rest.sum)
    · rw [if_pos hp]
      obtain ⟨h1, h2⟩ := ih s h hrest
      refine ⟨h1, ?_⟩
      rcases h2 with h2 | h2
      · exact Or.inl h2
      · rw [h2]; exact Or.inl hp
    · rw [if_neg hp]
      have hmono : ∀ s', s' < s + step → ¬ a < b * 2 ^ s' := by
        intro s' hs' hlt
        apply hp
        have hle : (2 : Nat) ^ s' ≤ 2 ^ (s + rest.sum) :=
          Nat.pow_le_pow_right (by norm_num) (by omega)
        exact lt_of_lt_of_le hlt (Nat.mul_le_mul_left b hle)
      obtain ⟨h1, h2⟩ := ih (s + step) hmono hrest
      refine ⟨h1, ?_⟩
      rcases h2 with h2 | h2
      · exact Or.inl h2
      · exact Or.inr (by rw [h2]; simp; omega)

theorem findShift_shiftSteps (a b : Nat) :
    (∀ s', s' < findShift a b shiftSteps 0 → ¬ a < b * 2 ^ s')
    ∧ (a < b * 2 ^ (findShift a b shiftSteps 0) ∨ findShift a b shiftSteps 0 = 2047) := by
  have h := findShift_spec a b shiftSteps 0 (by intro s' hs'; omega) (by
      intro i hi
      simp only [shiftSteps, List.length_cons, List.length_nil] at hi
      interval_cases i <;> rfl)
  simpa [shiftSteps] using h

theorem roundHalfEven_lt (a den K : Nat) (hden : 0 < den) (h : 2 * a < (2 * K - 1) * den) :
    roundHalfEven a den < K := by
  have hK : 1 ≤ K := by
    by_contra hK
    have : K = 0 := by omega
    simp [this] at h
  have hdiv := Nat.div_add_mod a den
  have hmod := Nat.mod_lt a hden
  set q := a / den with hq
  set r := a % den with hr
  have h' : 2 * (den * q + r) < (2 * K - 1) * den := by rw [hdiv]; exact h
  unfold roundHalfEven
  have key : ∀ m : Nat, m * den ≤ 2 * (den * q + r) → m < 2 * K - 1 := by
    intro m hm
    by_contra hcon
    have : (2 * K - 1) * den ≤ m * den := Nat.mul_le_mul_right den (by omega)
    omega
  split
  · rename_i hup
    have : (2 * q + 1) * den ≤ 2 * (den * q + r) := by
      have : 2 * r ≥ den := by rcases hup with h1 | h1 <;> omega
      nlinarith
    have := key _ this
    omega
  · have : (2 * q) * den ≤ 2 * (den * q + r) := by nlinarith
    have := key _ this
    omega

theorem roundHalfEven_exact (m den : Nat) (hden : 0 < den) :
    roundHalfEven (m * den) den = m := by
  unfold roundHalfEven
  simp [Nat.mul_mod_left, Nat.mul_div_cancel _ hden, hden, Nat.pos_iff_ne_zero.mp hden]
  intro h
  omega

theorem parseFloat64_of_fits (n : JNumber) (h : n.overflowsFloat64 = false) :
    ∃ f, parseFloat64 n = some f := by
  have hd := n.denom_pos
  simp only [JNumber.overflowsFloat64, decide_eq_false_iff_not, not_le, float64Limit_eq] at h
  obtain ⟨hlow, hhigh⟩ := findShift_shiftSteps (n.numer * natPow 2 1074) (n.denom * two53)
  set s := findShift (n.numer * natPow 2 1074) (n.denom * two53) shiftSteps 0 with hs
  have hP : n.numer * natPow 2 1074 < n.denom * two53 * 2 ^ 2045 := by
    rw [natPow_eq, two53_eq]
    have h1 : n.numer * 2 ^ 1074 < (2 ^ 1024 - 2 ^ 970) * n.denom * 2 ^ 1074 :=
      Nat.mul_lt_mul_of_pos_right h (by positivity)
    have h2 : (2 ^ 1024 - 2 ^ 970) * n.denom * 2 ^ 1074 ≤ n.denom * 2 ^ 53 * 2 ^ 2045 := by
      have : (2 ^ 1024 - 2 ^ 970) * 2 ^ 1074 ≤ 2 ^ 53 * 2 ^ 2045 := by norm_num
      calc (2 ^ 1024 - 2 ^ 970) * n.denom * 2 ^ 1074
          = n.denom * ((2 ^ 1024 - 2 ^ 970) * 2 ^ 1074) := by ring
        _ ≤ n.denom * (2 ^ 53 * 2 ^ 2045) := Nat.mul_le_mul_left _ this
        _ = n.denom * 2 ^ 53 * 2 ^ 2045 := by ring
    exact Nat.lt_of_lt_of_le h1 h2
  have hs2045 : s ≤ 2045 := by
    by_contra hcon
    exact hlow 2045 (by omega) hP
  unfold parseFloat64
  simp only [← hs]
  by_cases hq : roundHalfEven (n.numer * natPow 2 1074) (n.denom * natPow 2 s) = two53
  · rw [if_pos hq]
    by_cases hlt : s < 2045
    · rw [if_neg (by omega)]; exact ⟨_, rfl⟩
    · exfalso
      have hs' : s = 2045 := by omega
      rw [hs'] at hq
      have hden : 0 < n.denom * natPow 2 2045 := by
        rw [natPow_eq]; positivity
      have := roundHalfEven_lt (n.numer * natPow 2 1074) (n.denom * natPow 2 2045) two53 hden (by
        rw [natPow_eq, natPow_eq, two53_eq]
        have h1 : 2 * (n.numer * 2 ^ 1074) < 2 * ((2 ^ 1024 - 2 ^ 970) * n.denom * 2 ^ 1074) :=
          Nat.mul_lt_mul_of_pos_left (Nat.mul_lt_mul_of_pos_right h (by positivity))
            (by norm_num)
        have h2 : 2 * ((2 ^ 1024 - 2 ^ 970) * 2 ^ 1074) = (2 * 2 ^ 53 - 1) * 2 ^ 2045 := by
          norm_num
        calc 2 * (n.numer * 2 ^ 1074)
            < 2 * ((2 ^ 1024 - 2 ^ 970) * n.denom * 2 ^ 1074) := h1
          _ = n.denom * (2 * ((2 ^ 1024 - 2 ^ 970) * 2 ^ 1074)) := by ring
          _ = n.denom * ((2 * 2 ^ 53 - 1) * 2 ^ 2045) := by rw [h2]
          _ = (2 * 2 ^ 53 - 1) * (n.denom * 2 ^ 2045) := by ring)
      omega
  · rw [if_neg hq, if_neg (by omega)]; exact ⟨_, rfl⟩

theorem parseFloat64_of_exactly (f : Float64) (n : JNumber) (h : f.exactly n = true) :
    parseFloat64 n = some f := by
  have hd := n.denom_pos
  simp only [Float64.exactly, Bool.and_eq_true, Bool.or_eq_true, decide_eq_true_eq,
    beq_iff_eq, two53_eq, two52_eq, natPow_eq] at h
  obtain ⟨⟨⟨⟨hneg, hmant⟩, hshift⟩, hcanon⟩, hval⟩ := h
  obtain ⟨hlow, hhigh⟩ := findShift_shiftSteps (n.numer * natPow 2 1074) (n.denom * two53)
  set s := findShift (n.numer * natPow 2 1074) (n.denom * two53) shiftSteps 0 with hs
  have hP : ∀ t, (n.numer * natPow 2 1074 < n.denom * two53 * 2 ^ t) ↔ f.mant * 2 ^ f.shift < 2 ^ (53 + t) := by
    intro t
    rw [natPow_eq, ← hval, two53_eq, pow_add]
    constructor
    · intro hlt
      have : f.mant * 2 ^ f.shift * n.denom < 2 ^ 53 * 2 ^ t * n.denom := by
        calc f.mant * 2 ^ f.shift * n.denom < n.denom * 2 ^ 53 * 2 ^ t := hlt
          _ = 2 ^ 53 * 2 ^ t * n.denom := by ring
      exact Nat.lt_of_mul_lt_mul_right this
    · intro hlt
      calc f.mant * 2 ^ f.shift * n.denom < 2 ^ 53 * 2 ^ t * n.denom :=
            Nat.mul_lt_mul_of_pos_right hlt hd
        _ = n.denom * 2 ^ 53 * 2 ^ t := by ring
  have hPshift : f.mant * 2 ^ f.shift < 2 ^ (53 + f.shift) := by
    rw [pow_add]
    exact Nat.mul_lt_mul_of_pos_right hmant (by positivity)
  have hle : s ≤ f.shift := by
    by_contra hcon
    exact hlow f.shift (by omega) ((hP f.shift).mpr hPshift)
  have hge : f.shift ≤ s := by
    by_contra hcon
    have hlt : s < f.shift := by omega
    have hm : 2 ^ 52 ≤ f.mant := by
      rcases hcanon with hc | hc
      · exact hc
      · omega
    rcases hhigh with hh | hh
    · have := (hP s).mp hh
      have h1 : 2 ^ (53 + s) ≤ 2 ^ 52 * 2 ^ f.shift := by
        rw [← pow_add]
        exact Nat.pow_le_pow_right (by norm_num) (by omega)
      have h2 : 2 ^ 52 * 2 ^ f.shift ≤ f.mant * 2 ^ f.shift :=
        Nat.mul_le_mul_right _ hm
      omega
    · omega
  have hseq : s = f.shift := by omega
  have hq : roundHalfEven (n.numer * natPow 2 1074) (n.denom * natPow 2 s) = f.mant := by
    rw [hseq, natPow_eq, natPow_eq, ← hval]
    have : f.mant * 2 ^ f.shift * n.denom = f.mant * (n.denom * 2 ^ f.shift) := by ring
    rw [this]
    exact roundHalfEven_exact _ _ (by positivity)
  unfold parseFloat64
  simp only [← hs, hq]
  have hne : f.mant ≠ two53 := by rw [two53_eq]; omega
  rw [if_neg hne, if_neg (by omega), hseq, ← hneg]

/-! ### Decoding into `interface{}` -/

mutual
theorem valueInterface_ok : ∀ (j : Json), j.numbersFit = true → ∃ v, valueInterface j = .ok v
  | .null, _ => ⟨_, rfl⟩
  | .bool _, _ => ⟨_, rfl⟩
  | .str _, _ => ⟨_, rfl⟩
  | .num n, h => by
    simp only [Json.numbersFit, Bool.not_eq_true'] at h
    obtain ⟨f, hf⟩ := parseFloat64_of_fits n h
    exact ⟨.float64 f, by simp only [valueInterface, convertNumber, hf]⟩
  | .arr elems, h => by
    simp only [Json.numbersFit] at h
    obtain ⟨vs, hvs⟩ := arrayInterface_ok elems h
    exact ⟨.slice vs, by simp [valueInterface, hvs]⟩
  | .obj members, h => by
    simp only [Json.numbersFit] at h
    obtain ⟨m, hm⟩ := objectInterface_ok members h []
    exact ⟨.map m, by simp [valueInterface, hm]⟩
theorem arrayInterface_ok : ∀ (xs : List Json), numbersFitList xs = true →
    ∃ vs, arrayInterface xs = .ok vs
  | [], _ => ⟨[], rfl⟩
  | x :: xs, h => by
    simp only [numbersFitList, Bool.and_eq_true] at h
    obtain ⟨v, hv⟩ := valueInterface_ok x h.1
    obtain ⟨vs, hvs⟩ := arrayInterface_ok xs h.2
    exact ⟨v :: vs, by simp [arrayInterface, hv, hvs]⟩
theorem objectInterface_ok : ∀ (members : List (String × Json)),
    numbersFitMembers members = true → ∀ m, ∃ m', objectInterface members m = .ok m'
  | [], _, m => ⟨m, rfl⟩
  | (k, x) :: rest, h, m => by
    simp only [numbersFitMembers, Bool.and_eq_true] at h
    obtain ⟨v, hv⟩ := valueInterface_ok x h.1
    obtain ⟨m', hm'⟩ := objectInterface_ok rest h.2 (GoMap.set m k v)
    exact ⟨m', by simp [objectInterface, hv, hm']⟩
end

theorem numbersFit_of_mem (members : List (String × Json)) (k : String) (x : Json)
    (h : numbersFitMembers members = true) (hmem : (k, x) ∈ members) : x.numbersFit = true := by
  induction members with
  | nil => cases hmem
  | cons p rest ih =>
    obtain ⟨a, b⟩ := p
    simp only [numbersFitMembers, Bool.and_eq_true] at h
    rcases List.mem_cons.mp hmem with heq | hmem
    · cases heq; exact h.1
    · exact ih h.2 hmem

theorem objectInterface_get?_of_not_mem (members : List (String × Json)) (k : String)
    (hk : ∀ x, (k, x) ∉ members) :
    ∀ m m', objectInterface members m = .ok m' → GoMap.get? m' k = GoMap.get? m k := by
  induction members with
  | nil => intro m m' h; simp [objectInterface] at h; rw [h]
  | cons p rest ih =>
    obtain ⟨a, b⟩ := p
    intro m m' h
    simp only [objectInterface] at h
    split at h
    · cases h
    · rename_i v hv
      have hak : a ≠ k := fun hak => hk b (by simp [hak])
      rw [ih (fun x hx => hk x (List.mem_cons_of_mem _ hx)) _ _ h, GoMap.get?_set]
      simp [hak]

theorem objectInterface_get?_of_mem (members : List (String × Json)) (k : String) (x : Json)
    (v : GoValue) (hnd : (members.map Prod.fst).Nodup) (hmem : (k, x) ∈ members)
    (hv : valueInterface x = .ok v) :
    ∀ m m', objectInterface members m = .ok m' → GoMap.get? m' k = some v := by
  induction members with
  | nil => cases hmem
  | cons p rest ih =>
    obtain ⟨a, b⟩ := p
    intro m m' h
    simp only [List.map_cons, List.nodup_cons] at hnd
    simp only [objectInterface] at h
    split at h
    · cases h
    · rename_i w hw
      rcases List.mem_cons.mp hmem with heq | hmem
      · cases heq
        rw [hv] at hw
        cases hw
        have hno : ∀ y, (k, y) ∉ rest := fun y hy =>
          hnd.1 (List.mem_map.mpr ⟨(k, y), hy, rfl⟩)
        rw [objectInterface_get?_of_not_mem rest k hno _ _ h, GoMap.get?_set]
        simp
      · exact ih hnd.2 hmem _ _ h

theorem GoMap.set_of_not_mem {V : Type} (m : GoMap V) (k : String) (v : V)
    (h : k ∉ m.keys) : m.set k v = m ++ [(k, v)] := by
  induction m with
  | nil => rfl
  | cons p rest ih =>
    obtain ⟨a, b⟩ := p
    simp only [GoMap.keys, List.map_cons, List.mem_cons, not_or] at h
    have hak : ¬ a = k := fun hak => h.1 hak.symm
    simp only [GoMap.set, hak, if_false, List.cons_append]
    rw [ih (by simpa [GoMap.keys] using h.2)]

theorem valueInterface_string (x : Json) (t : String)
    (h : valueInterface x = .ok (.string t)) : x = .str t := by
  cases x with
  | null => simp [valueInterface] at h
  | bool b => simp [valueInterface] at h
  | num n =>
    simp only [valueInterface, convertNumber] at h
    split at h <;> simp at h
  | str s => simp [valueInterface] at h; rw [h]
  | arr elems =>
    simp only [valueInterface] at h
    split at h <;> simp at h
  | obj members =>
    simp only [valueInterface] at h
    split at h <;> simp at h

theorem objectInterface_get?_source (members : List (String × Json)) (k : String)
    (v : GoValue) :
    ∀ m m', objectInterface members m = .ok m' → GoMap.get? m' k = some v →
      (∃ x, (k, x) ∈ members ∧ valueInterface x = .ok v) ∨ GoMap.get? m k = some v := by
  induction members with
  | nil => intro m m' h hg; simp [objectInterface] at h; subst h; exact Or.inr hg
  | cons p rest ih =>
    obtain ⟨a, b⟩ := p
    intro m m' h hg
    simp only [objectInterface] at h
    split at h
    · cases h
    · rename_i w hw
      rcases ih _ _ h hg with ⟨x, hx, hxv⟩ | hset
      · exact Or.inl ⟨x, List.mem_cons_of_mem _ hx, hxv⟩
      · rw [GoMap.get?_set] at hset
        split at hset
        · rename_i hak
          cases hset
          exact Or.inl ⟨b, by simp [hak], hw⟩
        · exact Or.inr hset

/-! ### Values that represent a document unchanged -/

mutual
theorem valueInterface_of_represents : ∀ (v : GoValue) (j : Json),
    v.represents j = true → valueInterface j = .ok v
  | .nil, j, h => by
    cases j <;> simp [GoValue.represents] at h
    rfl
  | .bool b, j, h => by
    cases j <;> simp [GoValue.represents] at h
    subst h; rfl
  | .float64 f, j, h => by
    cases j with
    | num n =>
      simp only [GoValue.represents] at h
      simp only [valueInterface, convertNumber, parseFloat64_of_exactly f n h]
    | _ => simp [GoValue.represents] at h
  | .string s, j, h => by
    cases j <;> simp [GoValue.represents] at h
    subst h; rfl
  | .slice vs, j, h => by
    cases j with
    | arr xs =>
      simp only [GoValue.represents] at h
      simp only [valueInterface, arrayInterface_of_represents vs xs h]
    | _ => simp [GoValue.represents] at h
  | .map m, j, h => by
    cases j with
    | obj ms =>
      simp only [GoValue.represents, Bool.and_eq_true, decide_eq_true_eq] at h
      have := objectInterface_of_represents m ms h.2 h.1 [] (by simp [GoMap.keys])
      simp only [valueInterface, this, List.nil_append]
    | _ => simp [GoValue.represents] at h
theorem arrayInterface_of_represents : ∀ (vs : List GoValue) (xs : List Json),
    representsList vs xs = true → arrayInterface xs = .ok vs
  | [], xs, h => by
    cases xs <;> simp [representsList] at h
    rfl
  | v :: vs, xs, h => by
    cases xs with
    | nil => simp [representsList] at h
    | cons x xs' =>
      simp only [representsList, Bool.and_eq_true] at h
      simp [arrayInterface, valueInterface_of_represents v x h.1,
        arrayInterface_of_represents vs xs' h.2]
theorem objectInterface_of_represents : ∀ (m : List (String × GoValue))
    (ms : List (String × Json)), representsMembers m ms = true →
    (ms.map Prod.fst).Nodup → ∀ (acc : List (String × GoValue)),
    (∀ k ∈ ms.map Prod.fst, k ∉ GoMap.keys acc) →
    objectInterface ms acc = .ok (acc ++ m)
  | [], ms, h, _, acc, _ => by
    cases ms <;> simp [representsMembers] at h
    simp [objectInterface]
  | (k, v) :: m, ms, h, hnd, acc, hdisj => by
    cases ms with
    | nil => simp [representsMembers] at h
    | cons p ms' =>
      obtain ⟨k', x⟩ := p
      simp only [representsMembers, Bool.and_eq_true, beq_iff_eq] at h
      obtain ⟨⟨hk, hv⟩, hm⟩ := h
      subst hk
      simp only [List.map_cons, List.nodup_cons] at hnd
      have hkacc : k ∉ GoMap.keys acc := hdisj k (by simp)
      have hdisj' : ∀ k' ∈ ms'.map Prod.fst, k' ∉ GoMap.keys (acc ++ [(k, v)]) := by
        intro k' hk' hmem
        simp only [GoMap.keys, List.map_append, List.map_cons, List.map_nil, List.mem_append,
          List.mem_singleton] at hmem
        rcases hmem with hmem | hmem
        · exact hdisj k' (by simp only [List.map_cons, List.mem_cons]; exact Or.inr hk')
            (by simpa [GoMap.keys] using hmem)
        · exact hnd.1 (hmem ▸ hk')
      have := objectInterface_of_represents m ms' hm hnd.2 (acc ++ [(k, v)]) hdisj'
      simp only [objectInterface, valueInterface_of_represents v x hv,
        GoMap.set_of_not_mem acc k v hkacc, this, List.append_assoc, List.singleton_append]
end

theorem numbersFit_of_represents (v : GoValue) (j : Json) (h : v.represents j = true) :
    ∃ w, valueInterface j = .ok w :=
  ⟨v, valueInterface_of_represents v j h⟩

/-! ### Decoding into structs -/

theorem foldName_nodup_keys (members : List (String × Json)) (h : DistinctKeys members) :
    (members.map Prod.fst).Nodup := by
  have : members.map (fun kv => foldName kv.1) = (members.map Prod.fst).map foldName := by
    simp
  rw [DistinctKeys, this] at h
  exact List.Nodup.of_map _ h

theorem DistinctKeys.unique (members : List (String × Json)) (h : DistinctKeys members)
    (k k' : String) (v v' : Json) (hm : (k, v) ∈ members) (hm' : (k', v') ∈ members)
    (hf : foldName k = foldName k') : k = k' ∧ v = v' := by
  have := List.inj_on_of_nodup_map h hm hm' hf
  exact Prod.mk.inj this

theorem objectFields_frame {T α : Type} (field : T → String → Json → Except JsonError T)
    (get : T → α) (name : String)
    (hframe : ∀ e k v e', field e k v = .ok e' → foldName k ≠ name → get e' = get e)
    (members : List (String × Json)) (hno : ∀ k v, (k, v) ∈ members → foldName k ≠ name) :
    ∀ e r, objectFields field members e = .ok r → get r = get e := by
  induction members with
  | nil => intro e r h; simp [objectFields] at h; rw [h]
  | cons p rest ih =>
    obtain ⟨a, b⟩ := p
    intro e r h
    simp only [objectFields] at h
    split at h
    · cases h
    · rename_i e' he'
      rw [ih (fun k v hkv => hno k v (List.mem_cons_of_mem _ hkv)) _ _ h]
      exact hframe e a b e' he' (hno a b (List.mem_cons_self _ _))

theorem objectFields_get {T α : Type} (field : T → String → Json → Except JsonError T)
    (get : T → α) (name : String) (store : α → Json → Except JsonError α)
    (hframe : ∀ e k v e', field e k v = .ok e' → foldName k ≠ name → get e' = get e)
    (hstore : ∀ e k v e', field e k v = .ok e' → foldName k = name →
      store (get e) v = .ok (get e'))
    (members : List (String × Json)) (hnd : DistinctKeys members)
    (k : String) (v : Json) (hmem : (k, v) ∈ members) (hk : foldName k = name) :
    ∀ e r, objectFields field members e = .ok r → store (get e) v = .ok (get r) := by
  induction members with
  | nil => cases hmem
  | cons p rest ih =>
    obtain ⟨a, b⟩ := p
    intro e r h
    have hnd' : DistinctKeys rest := by
      simp only [DistinctKeys, List.map_cons, List.nodup_cons] at hnd
      exact hnd.2
    have hhead : ∀ k' v', (k', v') ∈ rest → foldName k' ≠ foldName a := by
      intro k' v' hkv heq
      simp only [DistinctKeys, List.map_cons, List.nodup_cons] at hnd
      exact hnd.1 (List.mem_map.mpr ⟨(k', v'), hkv, heq⟩)
    simp only [objectFields] at h
    split at h
    · cases h
    · rename_i e' he'
      rcases List.mem_cons.mp hmem with heq | hmem
      · cases heq
        have hr : get r = get e' :=
          objectFields_frame field get name hframe rest
            (fun k' v' hkv => hk ▸ hhead k' v' hkv) _ _ h
        rw [hr]
        exact hstore e k v e' he' hk
      · have hak : foldName a ≠ name := fun heq => hhead k v hmem (hk.trans heq.symm)
        rw [← hframe e a b e' he' hak]
        exact ih hnd' hmem _ _ h

theorem objectFields_ok {T : Type} (field : T → String → Json → Except JsonError T)
    (members : List (String × Json))
    (h : ∀ k v, (k, v) ∈ members → ∀ e, ∃ e', field e k v = .ok e') :
    ∀ e, ∃ r, objectFields field members e = .ok r := by
  induction members with
  | nil => intro e; exact ⟨e, rfl⟩
  | cons p rest ih =>
    obtain ⟨a, b⟩ := p
    intro e
    obtain ⟨e', he'⟩ := h a b (List.mem_cons_self _ _) e
    obtain ⟨r, hr⟩ := ih (fun k v hkv => h k v (List.mem_cons_of_mem _ hkv)) e'
    exact ⟨r, by simp [objectFields, he', hr]⟩

theorem except_map_eq_ok {ε α β : Type} (f : α → β) (x : Except ε α) (y : β) :
    Except.map f x = .ok y ↔ ∃ a, x = .ok a ∧ f a = y := by
  cases x <;> simp [Except.map]

theorem FieldIs.value (members : List (String × Json)) (name : String) (oj : Option Json)
    (k : String) (v : Json) (hnd : DistinctKeys members) (hname : foldName name = name)
    (hf : FieldIs members name oj) (hkv : (k, v) ∈ members) (hk : foldName k = name) :
    oj = some v := by
  cases oj with
  | none => exact absurd hk (hf k v hkv)
  | some j =>
    obtain ⟨-, rfl⟩ := DistinctKeys.unique members hnd k name v j hkv hf (hk.trans hname.symm)
    rfl

theorem objectFields_field {T α : Type} (field : T → String → Json → Except JsonError T)
    (get : T → α) (name : String) (store : α → Json → Except JsonError α)
    (hframe : ∀ e k v e', field e k v = .ok e' → foldName k ≠ name → get e' = get e)
    (hstore : ∀ e k v e', field e k v = .ok e' → foldName k = name →
      store (get e) v = .ok (get e'))
    (members : List (String × Json)) (hnd : DistinctKeys members)
    (hname : foldName name = name) (oj : Option Json) (hf : FieldIs members name oj)
    (e r : T) (hr : objectFields field members e = .ok r) :
    (oj = none → get r = get e) ∧ (∀ v, oj = some v → store (get e) v = .ok (get r)) := by
  cases oj with
  | none =>
    exact ⟨fun _ => objectFields_frame field get name hframe members hf e r hr,
      fun v hv => by cases hv⟩
  | some w =>
    refine ⟨fun h => (by cases h), fun v hv => ?_⟩
    cases hv
    exact objectFields_get field get name store hframe hstore members hnd name w hf hname e r hr

theorem storeElems_strings (cur l : List String) :
    storeElems storeString "" cur (l.map Json.str) = .ok l := by
  induction l generalizing cur with
  | nil => rfl
  | cons a l ih => simp [storeElems, storeString, ih]

theorem storeStringSlice_nil (l : List String) :
    storeStringSlice GoSlice.nil (.arr (l.map Json.str)) = .ok (GoSlice.ofList l) := by
  cases l with
  | nil => rfl
  | cons a l =>
    have := storeElems_strings [] (a :: l)
    simp only [List.map_cons] at this
    simp only [storeStringSlice, storeSlice, List.map_cons, GoSlice.nil, List.append_nil, this,
      List.drop_nil, GoSlice.ofList]

theorem storeStringSlice_ok (cur : GoSlice String) (l : List String) :
    ∃ r, storeStringSlice cur (.arr (l.map Json.str)) = .ok r := by
  cases l with
  | nil => exact ⟨_, rfl⟩
  | cons a l =>
    have := storeElems_strings (cur.elems ++ cur.spare) (a :: l)
    simp only [List.map_cons] at this
    exact ⟨⟨a :: l, (cur.elems ++ cur.spare).drop (a :: l).length⟩,
      by simp only [storeStringSlice, storeSlice, List.map_cons, this, List.length_cons,
        List.length_map]⟩

theorem storeInt64_ofInt (cur v : Int) (h : IsInt64 v) :
    storeInt64 cur (.num (JNumber.ofInt v)) = .ok v := by
  unfold IsInt64 at h
  have hv : (if decide (v < 0) = true then -((v.natAbs : Nat) : Int) else ((v.natAbs : Nat) : Int))
      = v := by
    by_cases hneg : v < 0
    · simp only [hneg, decide_True, if_true]; omega
    · simp only [hneg, decide_False, Bool.false_eq_true, if_false]; omega
  simp only [storeInt64, JNumber.ofInt, hv]
  rw [if_pos h]

theorem optStrings_eq (tags : Option (List String)) (x : GoSlice String)
    (h : (tags.map (fun ts => Json.arr (ts.map Json.str)) = none → x = GoSlice.nil)
      ∧ (∀ v, tags.map (fun ts => Json.arr (ts.map Json.str)) = some v →
          storeStringSlice GoSlice.nil v = .ok x)) :
    x = GoSlice.ofList (tags.getD []) := by
  cases tags with
  | none => exact h.1 rfl
  | some ts =>
    have := h.2 _ rfl
    rw [storeStringSlice_nil] at this
    exact (Except.ok.inj this).symm

theorem optInt_eq (id : Option Int) (x : Int) (hrange : ∀ v, id = some v → IsInt64 v)
    (h : (id.map (fun v => Json.num (JNumber.ofInt v)) = none → x = 0)
      ∧ (∀ v, id.map (fun v => Json.num (JNumber.ofInt v)) = some v →
          storeInt64 0 v = .ok x)) :
    x = id.getD 0 := by
  cases id with
  | none => exact h.1 rfl
  | some v =>
    have := h.2 _ rfl
    rw [storeInt64_ofInt 0 v (hrange v rfl)] at this
    exact (Except.ok.inj this).symm

theorem optString_eq (flow : Option String) (x : String)
    (h : (flow.map Json.str = none → x = "")
      ∧ (∀ v, flow.map Json.str = some v → storeString "" v = .ok x)) :
    x = flow.getD "" := by
  cases flow with
  | none => exact h.1 rfl
  | some s =>
    have := h.2 _ rfl
    exact (Except.ok.inj this).symm

theorem EventRecord_field_spec {C A : Type} (storeC : C → Json → Except JsonError C)
    (storeA : A → Json → Except JsonError A) (e e' : EventRecord C A) (k : String) (v : Json)
    (h : EventRecord.field storeC storeA e k v = .ok e') :
    ((foldName k ≠ "tags" → e'.Tags = e.Tags)
      ∧ (foldName k = "tags" → storeStringSlice e.Tags v = .ok e'.Tags))
    ∧ ((foldName k ≠ "id" → e'.ID = e.ID)
      ∧ (foldName k = "id" → storeInt64 e.ID v = .ok e'.ID))
    ∧ ((foldName k ≠ "flow" → e'.Flow = e.Flow)
      ∧ (foldName k = "flow" → storeString e.Flow v = .ok e'.Flow))
    ∧ ((foldName k ≠ "content" → e'.Content = e.Content)
      ∧ (foldName k = "content" → storeC e.Content v = .ok e'.Content))
    ∧ ((foldName k ≠ "sent" → e'.Timestamp = e.Timestamp)
      ∧ (foldName k = "sent" → storeInt64 e.Timestamp v = .ok e'.Timestamp))
    ∧ ((foldName k ≠ "attachments" → e'.Attachments = e.Attachments)
      ∧ (foldName k = "attachments" → storeA e.Attachments v = .ok e'.Attachments))
    ∧ ((foldName k ≠ "user" → e'.UserID = e.UserID)
      ∧ (foldName k = "user" → storeString e.UserID v = .ok e'.UserID)) := by
  unfold EventRecord.field at h
  split_ifs at h with h1 h2 h3 h4 h5 h6 h7 <;>
    simp only [except_map_eq_ok, Except.ok.injEq] at h <;>
    (try obtain ⟨x, hx, rfl⟩ := h) <;> simp_all

theorem storeEvent_ok {C A : Type} (storeC : C → Json → Except JsonError C)
    (storeA : A → Json → Except JsonError A) (c0 : C) (a0 : A)
    (members : List (String × Json)) (tags : Option (List String)) (id : Option Int)
    (flow : Option String) (sent : Option Int) (user : Option String) (cj : Json)
    (aj : Option Json) (c : C) (a : A)
    (henv : HasEnvelope members tags id flow sent user)
    (hcontent : ("content", cj) ∈ members) (hatt : FieldIs members "attachments" aj)
    (hc : storeC c0 cj = .ok c) (hcs : ∀ cur, ∃ c', storeC cur cj = .ok c')
    (ha : (aj = none → a = a0) ∧ (∀ j, aj = some j → storeA a0 j = .ok a))
    (has : ∀ j, aj = some j → ∀ cur, ∃ a', storeA cur j = .ok a') :
    storeStruct (EventRecord.field storeC storeA) (EventRecord.zero c0 a0) (.obj members)
      = .ok ⟨.ofList (tags.getD []), id.getD 0, flow.getD "", c, sent.getD 0, a,
          user.getD ""⟩ := by
  have hnd := henv.distinct
  have hsucc : ∀ k v, (k, v) ∈ members → ∀ e : EventRecord C A,
      ∃ e', EventRecord.field storeC storeA e k v = .ok e' := by
    intro k v hkv e
    unfold EventRecord.field
    split_ifs with h1 h2 h3 h4 h5 h6 h7
    · have hv := FieldIs.value members _ _ k v hnd rfl henv.tagsField hkv h1
      cases tags with
      | none => simp at hv
      | some ts =>
        simp only [Option.map_some', Option.some.injEq] at hv
        subst hv
        obtain ⟨r, hr⟩ := storeStringSlice_ok e.Tags ts
        exact ⟨_, by rw [hr]; rfl⟩
    · have hv := FieldIs.value members _ _ k v hnd rfl henv.idField hkv h2
      cases id with
      | none => simp at hv
      | some w =>
        simp only [Option.map_some', Option.some.injEq] at hv
        subst hv
        exact ⟨_, by rw [storeInt64_ofInt _ _ (henv.idRange w rfl)]; rfl⟩
    · have hv := FieldIs.value members _ _ k v hnd rfl henv.flowField hkv h3
      cases flow with
      | none => simp at hv
      | some w =>
        simp only [Option.map_some', Option.some.injEq] at hv
        subst hv
        exact ⟨_, rfl⟩
    · obtain ⟨-, rfl⟩ := DistinctKeys.unique members hnd _ _ _ _ hkv hcontent h4
      obtain ⟨c', hc'⟩ := hcs e.Content
      exact ⟨_, by rw [hc']; rfl⟩
    · have hv := FieldIs.value members _ _ k v hnd rfl henv.sentField hkv h5
      cases sent with
      | none => simp at hv
      | some w =>
        simp only [Option.map_some', Option.some.injEq] at hv
        subst hv
        exact ⟨_, by rw [storeInt64_ofInt _ _ (henv.sentRange w rfl)]; rfl⟩
    · have hv := FieldIs.value members _ _ k v hnd rfl hatt hkv h6
      obtain ⟨a', ha'⟩ := has v hv e.Attachments
      exact ⟨_, by rw [ha']; rfl⟩
    · have hv := FieldIs.value members _ _ k v hnd rfl henv.userField hkv h7
      cases user with
      | none => simp at hv
      | some w =>
        simp only [Option.map_some', Option.some.injEq] at hv
        subst hv
        exact ⟨_, rfl⟩
    · exact ⟨e, rfl⟩
  obtain ⟨r, hr⟩ := objectFields_ok _ members hsucc (EventRecord.zero c0 a0)
  have spec := fun e k v e' h => EventRecord_field_spec storeC storeA e e' k v h
  have g1 := objectFields_field _ (fun e : EventRecord C A => e.Tags) "tags" storeStringSlice
    (fun e k v e' h => (spec e k v e' h).1.1) (fun e k v e' h => (spec e k v e' h).1.2)
    members hnd rfl _ henv.tagsField _ _ hr
  have g2 := objectFields_field _ (fun e : EventRecord C A => e.ID) "id" storeInt64
    (fun e k v e' h => (spec e k v e' h).2.1.1) (fun e k v e' h => (spec e k v e' h).2.1.2)
    members hnd rfl _ henv.idField _ _ hr
  have g3 := objectFields_field _ (fun e : EventRecord C A => e.Flow) "flow" storeString
    (fun e k v e' h => (spec e k v e' h).2.2.1.1) (fun e k v e' h => (spec e k v e' h).2.2.1.2)
    members hnd rfl _ henv.flowField _ _ hr
  have g4 := objectFields_get _ (fun e : EventRecord C A => e.Content) "content" storeC
    (fun e k v e' h => (spec e k v e' h).2.2.2.1.1)
    (fun e k v e' h => (spec e k v e' h).2.2.2.1.2)
    members hnd _ _ hcontent rfl _ _ hr
  have g5 := objectFields_field _ (fun e : EventRecord C A => e.Timestamp) "sent" storeInt64
    (fun e k v e' h => (spec e k v e' h).2.2.2.2.1.1)
    (fun e k v e' h => (spec e k v e' h).2.2.2.2.1.2)
    members hnd rfl _ henv.sentField _ _ hr
  have g6 := objectFields_field _ (fun e : EventRecord C A => e.Attachments) "attachments"
    storeA
    (fun e k v e' h => (spec e k v e' h).2.2.2.2.2.1.1)
    (fun e k v e' h => (spec e k v e' h).2.2.2.2.2.1.2)
    members hnd rfl _ hatt _ _ hr
  have g7 := objectFields_field _ (fun e : EventRecord C A => e.UserID) "user" storeString
    (fun e k v e' h => (spec e k v e' h).2.2.2.2.2.2.1)
    (fun e k v e' h => (spec e k v e' h).2.2.2.2.2.2.2)
    members hnd rfl _ henv.userField _ _ hr
  have e1 := optStrings_eq tags r.Tags g1
  have e2 := optInt_eq id r.ID henv.idRange g2
  have e3 := optString_eq flow r.Flow g3
  have e4 : r.Content = c := by
    simp only [EventRecord.zero, hc, Except.ok.injEq] at g4
    exact g4.symm
  have e5 := optInt_eq sent r.Timestamp henv.sentRange g5
  have e6 : r.Attachments = a := by
    cases aj with
    | none => rw [ha.1 rfl]; exact g6.1 rfl
    | some j =>
      have h1 := g6.2 j rfl
      have h2 := ha.2 j rfl
      simp only [EventRecord.zero] at h1
      rw [h2] at h1
      exact (Except.ok.inj h1).symm
  have e7 := optString_eq user r.UserID g7
  simp only [storeStruct, hr]
  obtain ⟨t1, t2, t3, t4, t5, t6, t7⟩ := r
  simp only at e1 e2 e3 e4 e5 e6 e7
  subst e1 e2 e3 e4 e5 e6 e7
  rfl

theorem CommentContent_field_spec (c c' : CommentContent) (k : String) (v : Json)
    (h : CommentContent.field c k v = .ok c') :
    ((foldName k ≠ "title" → c'.Title = c.Title)
      ∧ (foldName k = "title" → storeString c.Title v = .ok c'.Title))
    ∧ ((foldName k ≠ "text" → c'.Text = c.Text)
      ∧ (foldName k = "text" → storeString c.Text v = .ok c'.Text)) := by
  unfold CommentContent.field at h
  split_ifs at h with h1 h2 <;>
    simp only [except_map_eq_ok, Except.ok.injEq] at h <;>
    (try obtain ⟨x, hx, rfl⟩ := h) <;> simp_all

theorem storeCommentContent_ok (cm : List (String × Json)) (title text : String)
    (hnd : DistinctKeys cm) (htitle : ("title", Json.str title) ∈ cm)
    (htext : ("text", Json.str text) ∈ cm) (cur : CommentContent) :
    storeStruct CommentContent.field cur (.obj cm) = .ok ⟨title, text⟩ := by
  have hsucc : ∀ k v, (k, v) ∈ cm → ∀ e : CommentContent,
      ∃ e', CommentContent.field e k v = .ok e' := by
    intro k v hkv e
    unfold CommentContent.field
    split_ifs with h1 h2
    · obtain ⟨-, rfl⟩ := DistinctKeys.unique cm hnd _ _ _ _ hkv htitle h1
      exact ⟨_, rfl⟩
    · obtain ⟨-, rfl⟩ := DistinctKeys.unique cm hnd _ _ _ _ hkv htext h2
      exact ⟨_, rfl⟩
    · exact ⟨e, rfl⟩
  obtain ⟨r, hr⟩ := objectFields_ok _ cm hsucc cur
  have spec := fun e k v e' h => CommentContent_field_spec e e' k v h
  have g1 := objectFields_get _ (fun e : CommentContent => e.Title) "title" storeString
    (fun e k v e' h => (spec e k v e' h).1.1) (fun e k v e' h => (spec e k v e' h).1.2)
    cm hnd _ _ htitle rfl _ _ hr
  have g2 := objectFields_get _ (fun e : CommentContent => e.Text) "text" storeString
    (fun e k v e' h => (spec e k v e' h).2.1) (fun e k v e' h => (spec e k v e' h).2.2)
    cm hnd _ _ htext rfl _ _ hr
  simp only [storeString, Except.ok.injEq] at g1 g2
  simp only [storeStruct, hr]
  obtain ⟨t1, t2⟩ := r
  simp only at g1 g2
  subst g1 g2
  rfl

theorem MessageEditContent_field_spec (c c' : MessageEditContent) (k : String) (v : Json)
    (h : MessageEditContent.field c k v = .ok c') :
    ((foldName k ≠ "updated_content" → c'.UpdatedMessage = c.UpdatedMessage)
      ∧ (foldName k = "updated_content" →
          storeString c.UpdatedMessage v = .ok c'.UpdatedMessage))
    ∧ ((foldName k ≠ "message" → c'.MessageID = c.MessageID)
      ∧ (foldName k = "message" → storeInt64 c.MessageID v = .ok c'.MessageID)) := by
  unfold MessageEditContent.field at h
  split_ifs at h with h1 h2 <;>
    simp only [except_map_eq_ok, Except.ok.injEq] at h <;>
    (try obtain ⟨x, hx, rfl⟩ := h) <;> simp_all

theorem storeMessageEditContent_ok (cm : List (String × Json)) (updated : String)
    (message : Int) (hnd : DistinctKeys cm)
    (hupdated : ("updated_content", Json.str updated) ∈ cm)
    (hmessage : ("message", Json.num (JNumber.ofInt message)) ∈ cm) (hrange : IsInt64 message)
    (cur : MessageEditContent) :
    storeStruct MessageEditContent.field cur (.obj cm) = .ok ⟨updated, message⟩ := by
  have hsucc : ∀ k v, (k, v) ∈ cm → ∀ e : MessageEditContent,
      ∃ e', MessageEditContent.field e k v = .ok e' := by
    intro k v hkv e
    unfold MessageEditContent.field
    split_ifs with h1 h2
    · obtain ⟨-, rfl⟩ := DistinctKeys.unique cm hnd _ _ _ _ hkv hupdated h1
      exact ⟨_, rfl⟩
    · obtain ⟨-, rfl⟩ := DistinctKeys.unique cm hnd _ _ _ _ hkv hmessage h2
      exact ⟨_, by rw [storeInt64_ofInt _ _ hrange]; rfl⟩
    · exact ⟨e, rfl⟩
  obtain ⟨r, hr⟩ := objectFields_ok _ cm hsucc cur
  have spec := fun e k v e' h => MessageEditContent_field_spec e e' k v h
  have g1 := objectFields_get _ (fun e : MessageEditContent => e.UpdatedMessage)
    "updated_content" storeString
    (fun e k v e' h => (spec e k v e' h).1.1) (fun e k v e' h => (spec e k v e' h).1.2)
    cm hnd _ _ hupdated rfl _ _ hr
  have g2 := objectFields_get _ (fun e : MessageEditContent => e.MessageID) "message" storeInt64
    (fun e k v e' h => (spec e k v e' h).2.1) (fun e k v e' h => (spec e k v e' h).2.2)
    cm hnd _ _ hmessage rfl _ _ hr
  simp only [storeString, storeInt64_ofInt _ _ hrange, Except.ok.injEq] at g1 g2
  simp only [storeStruct, hr]
  obtain ⟨t1, t2⟩ := r
  simp only at g1 g2
  subst g1 g2
  rfl

theorem TagChangeContent_field_spec (c c' : TagChangeContent) (k : String) (v : Json)
    (h : TagChangeContent.field c k v = .ok c') :
    ((foldName k ≠ "add" → c'.Added = c.Added)
      ∧ (foldName k = "add" → storeStringSlice c.Added v = .ok c'.Added))
    ∧ ((foldName k ≠ "remove" → c'.Removed = c.Removed)
      ∧ (foldName k = "remove" → storeStringSlice c.Removed v = .ok c'.Removed))
    ∧ ((foldName k ≠ "message" → c'.MessageID = c.MessageID)
      ∧ (foldName k = "message" → storeInt64 c.MessageID v = .ok c'.MessageID)) := by
  unfold TagChangeContent.field at h
  split_ifs at h with h1 h2 h3 <;>
    simp only [except_map_eq_ok, Except.ok.injEq] at h <;>
    (try obtain ⟨x, hx, rfl⟩ := h) <;> simp_all

theorem TagChangeContent_field_ok (cm : List (String × Json)) (added removed : List String)
    (message : Int) (hnd : DistinctKeys cm)
    (hadd : ("add", Json.arr (added.map Json.str)) ∈ cm)
    (hremove : ("remove", Json.arr (removed.map Json.str)) ∈ cm)
    (hmessage : ("message", Json.num (JNumber.ofInt message)) ∈ cm) (hrange : IsInt64 message) :
    ∀ k v, (k, v) ∈ cm → ∀ e : TagChangeContent,
      ∃ e', TagChangeContent.field e k v = .ok e' := by
  intro k v hkv e
  unfold TagChangeContent.field
  split_ifs with h1 h2 h3
  · obtain ⟨-, rfl⟩ := DistinctKeys.unique cm hnd _ _ _ _ hkv hadd h1
    obtain ⟨r, hr⟩ := storeStringSlice_ok e.Added added
    exact ⟨_, by rw [hr]; rfl⟩
  · obtain ⟨-, rfl⟩ := DistinctKeys.unique cm hnd _ _ _ _ hkv hremove h2
    obtain ⟨r, hr⟩ := storeStringSlice_ok e.Removed removed
    exact ⟨_, by rw [hr]; rfl⟩
  · obtain ⟨-, rfl⟩ := DistinctKeys.unique cm hnd _ _ _ _ hkv hmessage h3
    exact ⟨_, by rw [storeInt64_ofInt _ _ hrange]; rfl⟩
  · exact ⟨e, rfl⟩

theorem storeTagChangeContent_ok (cm : List (String × Json)) (added removed : List String)
    (message : Int) (hnd : DistinctKeys cm)
    (hadd : ("add", Json.arr (added.map Json.str)) ∈ cm)
    (hremove : ("remove", Json.arr (removed.map Json.str)) ∈ cm)
    (hmessage : ("message", Json.num (JNumber.ofInt message)) ∈ cm) (hrange : IsInt64 message)
    (cur : TagChangeContent) :
    ∃ r, storeStruct TagChangeContent.field cur (.obj cm) = .ok r :=
  objectFields_ok _ cm
    (TagChangeContent_field_ok cm added removed message hnd hadd hremove hmessage hrange) cur

theorem storeTagChangeContent_zero (cm : List (String × Json)) (added removed : List String)
    (message : Int) (hnd : DistinctKeys cm)
    (hadd : ("add", Json.arr (added.map Json.str)) ∈ cm)
    (hremove : ("remove", Json.arr (removed.map Json.str)) ∈ cm)
    (hmessage : ("message", Json.num (JNumber.ofInt message)) ∈ cm) (hrange : IsInt64 message) :
    storeStruct TagChangeContent.field ⟨GoSlice.nil, GoSlice.nil, 0⟩ (.obj cm)
      = .ok ⟨.ofList added, .ofList removed, message⟩ := by
  obtain ⟨r, hr⟩ := objectFields_ok _ cm
    (TagChangeContent_field_ok cm added removed message hnd hadd hremove hmessage hrange)
    ⟨GoSlice.nil, GoSlice.nil, 0⟩
  have spec := fun e k v e' h => TagChangeContent_field_spec e e' k v h
  have g1 := objectFields_get _ (fun e : TagChangeContent => e.Added) "add" storeStringSlice
    (fun e k v e' h => (spec e k v e' h).1.1) (fun e k v e' h => (spec e k v e' h).1.2)
    cm hnd _ _ hadd rfl _ _ hr
  have g2 := objectFields_get _ (fun e : TagChangeContent => e.Removed) "remove"
    storeStringSlice
    (fun e k v e' h => (spec e k v e' h).2.1.1) (fun e k v e' h => (spec e k v e' h).2.1.2)
    cm hnd _ _ hremove rfl _ _ hr
  have g3 := objectFields_get _ (fun e : TagChangeContent => e.MessageID) "message" storeInt64
    (fun e k v e' h => (spec e k v e' h).2.2.1) (fun e k v e' h => (spec e k v e' h).2.2.2)
    cm hnd _ _ hmessage rfl _ _ hr
  simp only [storeStringSlice_nil, storeInt64_ofInt _ _ hrange, Except.ok.injEq] at g1 g2 g3
  simp only [storeStruct, hr]
  obtain ⟨t1, t2, t3⟩ := r
  simp only at g1 g2 g3
  subst g1 g2 g3
  rfl

theorem UserActivityContent_field_spec (c c' : UserActivityContent) (k : String) (v : Json)
    (h : UserActivityContent.field c k v = .ok c') :
    (foldName k ≠ "last_activity" → c'.LastActivityTimestamp = c.LastActivityTimestamp)
    ∧ (foldName k = "last_activity" →
        storeInt64 c.LastActivityTimestamp v = .ok c'.LastActivityTimestamp) := by
  unfold UserActivityContent.field at h
  split_ifs at h with h1 <;>
    simp only [except_map_eq_ok, Except.ok.injEq] at h <;>
    (try obtain ⟨x, hx, rfl⟩ := h) <;> simp_all

theorem storeUserActivityContent_ok (cm : List (String × Json)) (last : Int)
    (hnd : DistinctKeys cm) (hlast : ("last_activity", Json.num (JNumber.ofInt last)) ∈ cm)
    (hrange : IsInt64 last) (cur : UserActivityContent) :
    storeStruct UserActivityContent.field cur (.obj cm) = .ok ⟨last⟩ := by
  have hsucc : ∀ k v, (k, v) ∈ cm → ∀ e : UserActivityContent,
      ∃ e', UserActivityContent.field e k v = .ok e' := by
    intro k v hkv e
    unfold UserActivityContent.field
    split_ifs with h1
    · obtain ⟨-, rfl⟩ := DistinctKeys.unique cm hnd _ _ _ _ hkv hlast h1
      exact ⟨_, by rw [storeInt64_ofInt _ _ hrange]; rfl⟩
    · exact ⟨e, rfl⟩
  obtain ⟨r, hr⟩ := objectFields_ok _ cm hsucc cur
  have spec := fun e k v e' h => UserActivityContent_field_spec e e' k v h
  have g1 := objectFields_get _ (fun e : UserActivityContent => e.LastActivityTimestamp)
    "last_activity" storeInt64
    (fun e k v e' h => (spec e k v e' h).1) (fun e k v e' h => (spec e k v e' h).2)
    cm hnd _ _ hlast rfl _ _ hr
  simp only [storeInt64_ofInt _ _ hrange, Except.ok.injEq] at g1
  simp only [storeStruct, hr]
  obtain ⟨t1⟩ := r
  simp only at g1
  subst g1
  rfl

theorem ActionEvent_field_spec (e e' : ActionEvent) (k : String) (v : Json)
    (h : ActionEvent.field e k v = .ok e') :
    ((foldName k ≠ "event" → e'.Type_ = e.Type_)
      ∧ (foldName k = "event" → storeString e.Type_ v = .ok e'.Type_))
    ∧ ((foldName k ≠ "tags" → e'.Tags = e.Tags)
      ∧ (foldName k = "tags" → storeStringSlice e.Tags v = .ok e'.Tags))
    ∧ ((foldName k ≠ "id" → e'.ID = e.ID)
      ∧ (foldName k = "id" → storeInt64 e.ID v = .ok e'.ID))
    ∧ ((foldName k ≠ "flow" → e'.Flow = e.Flow)
      ∧ (foldName k = "flow" → storeString e.Flow v = .ok e'.Flow))
    ∧ ((foldName k ≠ "content" → e'.Content = e.Content)
      ∧ (foldName k = "content" → storeInterface e.Content v = .ok e'.Content))
    ∧ ((foldName k ≠ "sent" → e'.Timestamp = e.Timestamp)
      ∧ (foldName k = "sent" → storeInt64 e.Timestamp v = .ok e'.Timestamp))
    ∧ ((foldName k ≠ "attachments" → e'.Attachments = e.Attachments)
      ∧ (foldName k = "attachments" → storeStringSlice e.Attachments v = .ok e'.Attachments))
    ∧ ((foldName k ≠ "user" → e'.UserID = e.UserID)
      ∧ (foldName k = "user" → storeString e.UserID v = .ok e'.UserID)) := by
  unfold ActionEvent.field at h
  split_ifs at h with h0 h1 h2 h3 h4 h5 h6 h7 <;>
    simp only [except_map_eq_ok, Except.ok.injEq] at h <;>
    (try obtain ⟨x, hx, rfl⟩ := h) <;> simp_all

theorem storeActionEvent_ok (members : List (String × Json)) (t : String)
    (tags : Option (List String)) (id : Option Int) (flow : Option String)
    (sent : Option Int) (user : Option String) (cj : Json) (atts : Option (List String))
    (c : GoValue)
    (henv : HasEnvelope members tags id flow sent user)
    (hevent : ("event", Json.str t) ∈ members)
    (hcontent : ("content", cj) ∈ members)
    (hatt : StringAttachments members atts)
    (hc : valueInterface cj = .ok c) :
    storeActionEvent ActionEvent.zero (.obj members)
      = .ok ⟨t, .ofList (tags.getD []), id.getD 0, flow.getD "", c, sent.getD 0,
          .ofList (atts.getD []), user.getD ""⟩ := by
  have hnd := henv.distinct
  unfold StringAttachments at hatt
  have hsucc : ∀ k v, (k, v) ∈ members → ∀ e : ActionEvent,
      ∃ e', ActionEvent.field e k v = .ok e' := by
    intro k v hkv e
    unfold ActionEvent.field
    split_ifs with h0 h1 h2 h3 h4 h5 h6 h7
    · obtain ⟨-, rfl⟩ := DistinctKeys.unique members hnd _ _ _ _ hkv hevent h0
      exact ⟨_, rfl⟩
    · have hv := FieldIs.value members _ _ k v hnd rfl henv.tagsField hkv h1
      cases tags with
      | none => simp at hv
      | some ts =>
        simp only [Option.map_some', Option.some.injEq] at hv
        subst hv
        obtain ⟨r, hr⟩ := storeStringSlice_ok e.Tags ts
        exact ⟨_, by rw [hr]; rfl⟩
    · have hv := FieldIs.value members _ _ k v hnd rfl henv.idField hkv h2
      cases id with
      | none => simp at hv
      | some w =>
        simp only [Option.map_some', Option.some.injEq] at hv
        subst hv
        exact ⟨_, by rw [storeInt64_ofInt _ _ (henv.idRange w rfl)]; rfl⟩
    · have hv := FieldIs.value members _ _ k v hnd rfl henv.flowField hkv h3
      cases flow with
      | none => simp at hv
      | some w =>
        simp only [Option.map_some', Option.some.injEq] at hv
        subst hv
        exact ⟨_, rfl⟩
    · obtain ⟨-, rfl⟩ := DistinctKeys.unique members hnd _ _ _ _ hkv hcontent h4
      exact ⟨_, by rw [storeInterface, hc]; rfl⟩
    · have hv := FieldIs.value members _ _ k v hnd rfl henv.sentField hkv h5
      cases sent with
      | none => simp at hv
      | some w =>
        simp only [Option.map_some', Option.some.injEq] at hv
        subst hv
        exact ⟨_, by rw [storeInt64_ofInt _ _ (henv.sentRange w rfl)]; rfl⟩
    · have hv := FieldIs.value members _ _ k v hnd rfl hatt hkv h6
      cases atts with
      | none => simp at hv
      | some l =>
        simp only [Option.map_some', Option.some.injEq] at hv
        subst hv
        obtain ⟨r, hr⟩ := storeStringSlice_ok e.Attachments l
        exact ⟨_, by rw [hr]; rfl⟩
    · have hv := FieldIs.value members _ _ k v hnd rfl henv.userField hkv h7
      cases user with
      | none => simp at hv
      | some w =>
        simp only [Option.map_some', Option.some.injEq] at hv
        subst hv
        exact ⟨_, rfl⟩
    · exact ⟨e, rfl⟩
  obtain ⟨r, hr⟩ := objectFields_ok _ members hsucc ActionEvent.zero
  have spec := fun e k v e' h => ActionEvent_field_spec e e' k v h
  have g0 := objectFields_get _ (fun e : ActionEvent => e.Type_) "event" storeString
    (fun e k v e' h => (spec e k v e' h).1.1) (fun e k v e' h => (spec e k v e' h).1.2)
    members hnd _ _ hevent rfl _ _ hr
  have g1 := objectFields_field _ (fun e : ActionEvent => e.Tags) "tags" storeStringSlice
    (fun e k v e' h => (spec e k v e' h).2.1.1) (fun e k v e' h => (spec e k v e' h).2.1.2)
    members hnd rfl _ henv.tagsField _ _ hr
  have g2 := objectFields_field _ (fun e : ActionEvent => e.ID) "id" storeInt64
    (fun e k v e' h => (spec e k v e' h).2.2.1.1) (fun e k v e' h => (spec e k v e' h).2.2.1.2)
    members hnd rfl _ henv.idField _ _ hr
  have g3 := objectFields_field _ (fun e : ActionEvent => e.Flow) "flow" storeString
    (fun e k v e' h => (spec e k v e' h).2.2.2.1.1)
    (fun e k v e' h => (spec e k v e' h).2.2.2.1.2)
    members hnd rfl _ henv.flowField _ _ hr
  have g4 := objectFields_get _ (fun e : ActionEvent => e.Content) "content" storeInterface
    (fun e k v e' h => (spec e k v e' h).2.2.2.2.1.1)
    (fun e k v e' h => (spec e k v e' h).2.2.2.2.1.2)
    members hnd _ _ hcontent rfl _ _ hr
  have g5 := objectFields_field _ (fun e : ActionEvent => e.Timestamp) "sent" storeInt64
    (fun e k v e' h => (spec e k v e' h).2.2.2.2.2.1.1)
    (fun e k v e' h => (spec e k v e' h).2.2.2.2.2.1.2)
    members hnd rfl _ henv.sentField _ _ hr
  have g6 := objectFields_field _ (fun e : ActionEvent => e.Attachments) "attachments"
    storeStringSlice
    (fun e k v e' h => (spec e k v e' h).2.2.2.2.2.2.1.1)
    (fun e k v e' h => (spec e k v e' h).2.2.2.2.2.2.1.2)
    members hnd rfl _ hatt _ _ hr
  have g7 := objectFields_field _ (fun e : ActionEvent => e.UserID) "user" storeString
    (fun e k v e' h => (spec e k v e' h).2.2.2.2.2.2.2.1)
    (fun e k v e' h => (spec e k v e' h).2.2.2.2.2.2.2.2)
    members hnd rfl _ henv.userField _ _ hr
  have e0 : r.Type_ = t := by
    simp only [storeString, Except.ok.injEq] at g0
    exact g0.symm
  have e1 := optStrings_eq tags r.Tags g1
  have e2 := optInt_eq id r.ID henv.idRange g2
  have e3 := optString_eq flow r.Flow g3
  have e4 : r.Content = c := by
    simp only [storeInterface, hc, Except.ok.injEq] at g4
    exact g4.symm
  have e5 := optInt_eq sent r.Timestamp henv.sentRange g5
  have e6 := optStrings_eq atts r.Attachments g6
  have e7 := optString_eq user r.UserID g7
  simp only [storeActionEvent, storeStruct, hr]
  obtain ⟨t0, t1, t2, t3, t4, t5, t6, t7⟩ := r
  simp only at e0 e1 e2 e3 e4 e5 e6 e7
  subst e0 e1 e2 e3 e4 e5 e6 e7
  rfl

theorem storeMap_of_represents (content : GoMap GoValue) (cj : Json)
    (h : (GoValue.map content).represents cj = true) :
    storeMap [] cj = .ok content := by
  cases cj with
  | obj ms =>
    simp only [GoValue.represents, Bool.and_eq_true, decide_eq_true_eq] at h
    have := objectInterface_of_represents content ms h.2 h.1 [] (by simp [GoMap.keys])
    simpa [storeMap] using this
  | _ => simp [GoValue.represents] at h

theorem storeMap_ok_of_represents (content : GoMap GoValue) (cj : Json)
    (h : (GoValue.map content).represents cj = true) (hfit : cj.numbersFit = true)
    (cur : GoMap GoValue) : ∃ r, storeMap cur cj = .ok r := by
  cases cj with
  | obj ms =>
    simp only [Json.numbersFit] at hfit
    obtain ⟨m, hm⟩ := objectInterface_ok ms hfit cur
    exact ⟨m, by simp only [storeMap, hm]⟩
  | _ => simp [GoValue.represents] at h

theorem storeMapElems_of_represents (atts : List (GoMap GoValue)) :
    ∀ xs, representsList (atts.map GoValue.map) xs = true →
      storeElems storeMap [] [] xs = .ok atts := by
  induction atts with
  | nil =>
    intro xs h
    cases xs with
    | nil => rfl
    | cons x xs => simp [representsList] at h
  | cons a atts ih =>
    intro xs h
    cases xs with
    | nil => simp [representsList] at h
    | cons x xs =>
      simp only [List.map_cons, representsList, Bool.and_eq_true] at h
      have h1 := storeMap_of_represents a x h.1
      have h2 := ih xs h.2
      simp only [storeElems, List.headD_nil, List.tail_nil, h1, h2]

theorem storeMapElems_ok (atts : List (GoMap GoValue)) :
    ∀ xs, representsList (atts.map GoValue.map) xs = true → numbersFitList xs = true →
      ∀ cur, ∃ r, storeElems storeMap [] cur xs = .ok r := by
  induction atts with
  | nil =>
    intro xs h _ cur
    cases xs with
    | nil => exact ⟨[], rfl⟩
    | cons x xs => simp [representsList] at h
  | cons a atts ih =>
    intro xs h hfit cur
    cases xs with
    | nil => simp [representsList] at h
    | cons x xs =>
      simp only [List.map_cons, representsList, Bool.and_eq_true] at h
      simp only [numbersFitList, Bool.and_eq_true] at hfit
      obtain ⟨m, hm⟩ := storeMap_ok_of_represents a x h.1 hfit.1 (cur.headD [])
      obtain ⟨r, hr⟩ := ih xs h.2 hfit.2 cur.tail
      exact ⟨m :: r, by simp only [storeElems, hm, hr]⟩

theorem storeMapSlice_of_represents (atts : List (GoMap GoValue)) (j : Json)
    (h : (GoValue.slice (atts.map GoValue.map)).represents j = true) :
    storeMapSlice GoSlice.nil j = .ok (GoSlice.ofList atts) := by
  cases j with
  | arr xs =>
    simp only [GoValue.represents] at h
    have := storeMapElems_of_represents atts xs h
    cases xs with
    | nil =>
      cases atts with
      | nil => rfl
      | cons a l => simp [representsList] at h
    | cons x xs =>
      simp only [storeMapSlice, storeSlice, GoSlice.nil, List.append_nil, this, List.drop_nil,
        GoSlice.ofList]
  | _ => simp [GoValue.represents] at h

theorem storeMapSlice_ok (atts : List (GoMap GoValue)) (j : Json)
    (h : (GoValue.slice (atts.map GoValue.map)).represents j = true)
    (hfit : j.numbersFit = true) (cur : GoSlice (GoMap GoValue)) :
    ∃ r, storeMapSlice cur j = .ok r := by
  cases j with
  | arr xs =>
    simp only [GoValue.represents] at h
    simp only [Json.numbersFit] at hfit
    cases xs with
    | nil => exact ⟨_, rfl⟩
    | cons x xs =>
      obtain ⟨r, hr⟩ := storeMapElems_ok atts (x :: xs) h hfit (cur.elems ++ cur.spare)
      exact ⟨⟨r, (cur.elems ++ cur.spare).drop (x :: xs).length⟩,
        by simp only [storeMapSlice, storeSlice, hr]⟩
  | _ => simp [GoValue.represents] at h

theorem storeMap_firstPass (members : List (String × Json)) (t : String)
    (hfit : numbersFitMembers members = true) (hnd : DistinctKeys members)
    (hevent : ("event", Json.str t) ∈ members) :
    ∃ m, storeMap [] (.obj members) = .ok m ∧ GoMap.get? m "event" = some (.string t) := by
  obtain ⟨m, hm⟩ := objectInterface_ok members hfit []
  refine ⟨m, hm, ?_⟩
  exact objectInterface_get?_of_mem members "event" (.str t) (.string t)
    (foldName_nodup_keys members hnd) hevent rfl [] m hm

/-! ### The event decoder -/

theorem unmarshal_dispatch (scan : List UInt8 → Option Json) (event : List UInt8)
    (members : List (String × Json)) (t : String)
    (hscan : scan event = some (.obj members)) (hfit : numbersFitMembers members = true)
    (hnd : DistinctKeys members) (hevent : ("event", Json.str t) ∈ members) :
    unmarshalFlowdockJSONEvent scan event =
      if t = "message" then
        unmarshalInto scan storeMessageEvent event (EventRecord.zero "" GoSlice.nil) Event.message
      else if t = "status" then
        unmarshalInto scan storeMessageEvent event (EventRecord.zero "" GoSlice.nil) Event.status
      else if t = "message-edit" then
        unmarshalInto scan storeMessageEditEvent event (EventRecord.zero ⟨"", 0⟩ GoSlice.nil)
          Event.messageEdit
      else if t = "comment" then
        unmarshalInto scan storeCommentEvent event (EventRecord.zero ⟨"", ""⟩ GoSlice.nil)
          Event.comment
      else if t = "tag-change" then
        unmarshalInto scan storeTagChangeEvent event
          (EventRecord.zero ⟨GoSlice.nil, GoSlice.nil, 0⟩ GoSlice.nil) Event.tagChange
      else if t = "activity.user" then
        unmarshalInto scan storeUserActivityEvent event (EventRecord.zero ⟨0⟩ GoSlice.nil)
          Event.userActivity
      else if t = "file" then
        unmarshalInto scan storeFileEvent event (EventRecord.zero [] GoSlice.nil) Event.file
      else
        unmarshalInto scan storeActionEvent event ActionEvent.zero Event.action := by
  obtain ⟨m, hm, hget⟩ := storeMap_firstPass members t hfit hnd hevent
  simp only [unmarshalFlowdockJSONEvent, Unmarshal, hscan, hm, hget]

theorem unmarshalInto_ok {T : Type} (scan : List UInt8 → Option Json)
    (store : T → Json → Except JsonError T) (event : List UInt8) (zero : T)
    (wrap : T → Event) (doc : Json) (e : T) (hscan : scan event = some doc)
    (h : store zero doc = .ok e) :
    unmarshalInto scan store event zero wrap = .returned (.ok (wrap e)) := by
  simp only [unmarshalInto, Unmarshal, hscan, h]

theorem stringAttachments_store (atts : Option (List String)) :
    ((atts.map (fun l => Json.arr (l.map Json.str)) = none →
        GoSlice.ofList (atts.getD []) = GoSlice.nil)
      ∧ (∀ j, atts.map (fun l => Json.arr (l.map Json.str)) = some j →
          storeStringSlice GoSlice.nil j = .ok (GoSlice.ofList (atts.getD []))))
    ∧ (∀ j, atts.map (fun l => Json.arr (l.map Json.str)) = some j →
        ∀ cur, ∃ a', storeStringSlice cur j = .ok a') := by
  cases atts with
  | none =>
    exact ⟨⟨fun _ => rfl, fun j hj => by cases hj⟩, fun j hj => by cases hj⟩
  | some l =>
    refine ⟨⟨fun h => (by cases h), fun j hj => ?_⟩, fun j hj cur => ?_⟩
    · cases hj; exact storeStringSlice_nil l
    · cases hj; exact storeStringSlice_ok cur l

/-- C1 (amended): for every JSON object whose keys are pairwise distinct up to case,
whose numbers are within the `float64` range, whose `event` field is one of the known
tags (message, status, comment, message-edit, tag-change, activity.user, file), whose
envelope fields tags, id, flow, sent, attachments and user are each absent or of the
declared type, and whose content matches the shape declared for that tag (for file,
content and attachments that decode without change), `unmarshalFlowdockJSONEvent`
returns no error and returns the typed variant of the tag, with each envelope field
equal to its value in the input, or the zero value when absent. -/
theorem unmarshal_known_tag (scan : List UInt8 → Option Json) (event : List UInt8)
    (members : List (String × Json)) (ev : Event)
    (hscan : scan event = some (.obj members)) (hfit : numbersFitMembers members = true)
    (hshape : TypedShape members ev) :
    unmarshalFlowdockJSONEvent scan event = .returned (.ok ev) := by
  cases hshape with
  | message tags id flow sent user content atts henv hevent hcontent hatts =>
    rw [unmarshal_dispatch scan event members _ hscan hfit henv.distinct hevent]
    simp only [if_true]
    exact unmarshalInto_ok scan _ event _ _ _ _ hscan
      (storeEvent_ok storeString storeStringSlice "" GoSlice.nil members tags id flow sent user
        _ _ _ _ henv hcontent hatts rfl (fun _ => ⟨_, rfl⟩)
        (stringAttachments_store atts).1 (stringAttachments_store atts).2)
  | status tags id flow sent user content atts henv hevent hcontent hatts =>
    rw [unmarshal_dispatch scan event members _ hscan hfit henv.distinct hevent]
    simp only [if_true, show ¬ ("status" = "message") by decide, if_false]
    exact unmarshalInto_ok scan _ event _ _ _ _ hscan
      (storeEvent_ok storeString storeStringSlice "" GoSlice.nil members tags id flow sent user
        _ _ _ _ henv hcontent hatts rfl (fun _ => ⟨_, rfl⟩)
        (stringAttachments_store atts).1 (stringAttachments_store atts).2)
  | comment tags id flow sent user cm title text atts henv hevent hcontent hcd htitle htext
      hatts =>
    rw [unmarshal_dispatch scan event members _ hscan hfit henv.distinct hevent]
    simp only [if_true, show ¬ ("comment" = "message") by decide,
      show ¬ ("comment" = "status") by decide, show ¬ ("comment" = "message-edit") by decide,
      if_false]
    exact unmarshalInto_ok scan _ event _ _ _ _ hscan
      (storeEvent_ok _ storeStringSlice _ GoSlice.nil members tags id flow sent user _ _ _ _
        henv hcontent hatts (storeCommentContent_ok cm title text hcd htitle htext _)
        (fun cur => ⟨_, storeCommentContent_ok cm title text hcd htitle htext cur⟩)
        (stringAttachments_store atts).1 (stringAttachments_store atts).2)
  | messageEdit tags id flow sent user cm updated message atts henv hevent hcontent hcd hup
      hmsg hrange hatts =>
    rw [unmarshal_dispatch scan event members _ hscan hfit henv.distinct hevent]
    simp only [if_true, show ¬ ("message-edit" = "message") by decide,
      show ¬ ("message-edit" = "status") by decide, if_false]
    exact unmarshalInto_ok scan _ event _ _ _ _ hscan
      (storeEvent_ok _ storeStringSlice _ GoSlice.nil members tags id flow sent user _ _ _ _
        henv hcontent hatts (storeMessageEditContent_ok cm updated message hcd hup hmsg hrange _)
        (fun cur => ⟨_, storeMessageEditContent_ok cm updated message hcd hup hmsg hrange cur⟩)
        (stringAttachments_store atts).1 (stringAttachments_store atts).2)
  | tagChange tags id flow sent user cm added removed message atts henv hevent hcontent hcd
      hadd hrem hmsg hrange hatts =>
    rw [unmarshal_dispatch scan event members _ hscan hfit henv.distinct hevent]
    simp only [if_true, show ¬ ("tag-change" = "message") by decide,
      show ¬ ("tag-change" = "status") by decide,
      show ¬ ("tag-change" = "message-edit") by decide,
      show ¬ ("tag-change" = "comment") by decide, if_false]
    exact unmarshalInto_ok scan _ event _ _ _ _ hscan
      (storeEvent_ok _ storeStringSlice _ GoSlice.nil members tags id flow sent user _ _ _ _
        henv hcontent hatts
        (storeTagChangeContent_zero cm added removed message hcd hadd hrem hmsg hrange)
        (fun cur =>
          storeTagChangeContent_ok cm added removed message hcd hadd hrem hmsg hrange cur)
        (stringAttachments_store atts).1 (stringAttachments_store atts).2)
  | userActivity tags id flow sent user cm last atts henv hevent hcontent hcd hlast hrange
      hatts =>
    rw [unmarshal_dispatch scan event members _ hscan hfit henv.distinct hevent]
    simp only [if_true, show ¬ ("activity.user" = "message") by decide,
      show ¬ ("activity.user" = "status") by decide,
      show ¬ ("activity.user" = "message-edit") by decide,
      show ¬ ("activity.user" = "comment") by decide,
      show ¬ ("activity.user" = "tag-change") by decide, if_false]
    exact unmarshalInto_ok scan _ event _ _ _ _ hscan
      (storeEvent_ok _ storeStringSlice _ GoSlice.nil members tags id flow sent user _ _ _ _
        henv hcontent hatts (storeUserActivityContent_ok cm last hcd hlast hrange _)
        (fun cur => ⟨_, storeUserActivityContent_ok cm last hcd hlast hrange cur⟩)
        (stringAttachments_store atts).1 (stringAttachments_store atts).2)
  | file tags id flow sent user cj content atts henv hevent hcontent hc hatts =>
    rw [unmarshal_dispatch scan event members _ hscan hfit henv.distinct hevent]
    simp only [if_true, show ¬ ("file" = "message") by decide,
      show ¬ ("file" = "status") by decide, show ¬ ("file" = "message-edit") by decide,
      show ¬ ("file" = "comment") by decide, show ¬ ("file" = "tag-change") by decide,
      show ¬ ("file" = "activity.user") by decide, if_false]
    have hcfit := numbersFit_of_mem members _ _ hfit hcontent
    rcases hatts with ⟨habsent, hnil⟩ | ⟨j, hpresent, hrep⟩
    · subst hnil
      exact unmarshalInto_ok scan _ event _ _ _ _ hscan
        (storeEvent_ok storeMap storeMapSlice [] GoSlice.nil members tags id flow sent user
          cj none _ _ henv hcontent habsent (storeMap_of_represents content cj hc)
          (storeMap_ok_of_represents content cj hc hcfit)
          ⟨fun _ => rfl, fun j hj => by cases hj⟩ (fun j hj => by cases hj))
    · have hafit := numbersFit_of_mem members _ _ hfit hpresent
      exact unmarshalInto_ok scan _ event _ _ _ _ hscan
        (storeEvent_ok storeMap storeMapSlice [] GoSlice.nil members tags id flow sent user
          cj (some j) _ _ henv hcontent hpresent (storeMap_of_represents content cj hc)
          (storeMap_ok_of_represents content cj hc hcfit)
          ⟨fun h => (by cases h), fun j' hj => by
            cases hj; exact storeMapSlice_of_represents atts j hrep⟩
          (fun j' hj cur => by cases hj; exact storeMapSlice_ok atts j hrep hafit cur))

/-- C2 (amended): for every JSON event object whose keys are pairwise distinct up to
case, whose numbers are within the `float64` range, whose envelope fields are each
absent or of the declared type and whose `event` field is a string other than the known
tags (exact match), `unmarshalFlowdockJSONEvent` returns an `ActionEvent` whose `Type`
equals that string and whose `Content` is the raw content value unchanged whenever a Go
value holds it unchanged: a string always, and any content without repeated keys whose
numbers are exactly `float64` values. -/
theorem unmarshal_other_tag (scan : List UInt8 → Option Json) (event : List UInt8)
    (members : List (String × Json)) (t : String) (tags : Option (List String))
    (id : Option Int) (flow : Option String) (sent : Option Int) (user : Option String)
    (c : Json) (atts : Option (List String))
    (hscan : scan event = some (.obj members)) (hfit : numbersFitMembers members = true)
    (henv : HasEnvelope members tags id flow sent user)
    (hevent : ("event", Json.str t) ∈ members) (hother : t ∉ knownTags)
    (hcontent : ("content", c) ∈ members) (hatts : StringAttachments members atts) :
    ∃ v, unmarshalFlowdockJSONEvent scan event
          = .returned (.ok (.action ⟨t, .ofList (tags.getD []), id.getD 0, flow.getD "", v,
              sent.getD 0, .ofList (atts.getD []), user.getD ""⟩))
      ∧ (∀ s, c = .str s → v = .string s)
      ∧ (∀ w : GoValue, w.represents c = true → v = w) := by
  obtain ⟨v, hv⟩ := valueInterface_ok c (numbersFit_of_mem members _ _ hfit hcontent)
  refine ⟨v, ?_, ?_, ?_⟩
  · rw [unmarshal_dispatch scan event members _ hscan hfit henv.distinct hevent]
    simp only [knownTags, List.mem_cons, List.mem_singleton, not_or, List.not_mem_nil,
      or_false] at hother
    obtain ⟨h1, h2, h3, h4, h5, h6, h7⟩ := hother
    simp only [h1, h2, h3, h4, h5, h6, h7, if_false]
    exact unmarshalInto_ok scan _ event _ _ _ _ hscan
      (storeActionEvent_ok members t tags id flow sent user c atts v henv hevent hcontent
        hatts hv)
  · rintro s rfl
    simpa [valueInterface] using hv.symm
  · intro w hw
    have := valueInterface_of_represents w c hw
    rw [hv] at this
    exact Except.ok.inj this

/-- C3 (what the code does): on a well-formed JSON object whose `event` field is
missing or is not a string, `unmarshalFlowdockJSONEvent` panics at the unchecked type
assertion instead of returning an error value. -/
theorem unmarshal_without_string_event (scan : List UInt8 → Option Json)
    (event : List UInt8) (members : List (String × Json))
    (hscan : scan event = some (.obj members)) (hfit : numbersFitMembers members = true)
    (hevent : ∀ x, ("event", x) ∈ members → ∀ t, x ≠ .str t) :
    unmarshalFlowdockJSONEvent scan event = .panicked := by
  obtain ⟨m, hm⟩ := objectInterface_ok members hfit []
  have hget : ∀ t, GoMap.get? m "event" ≠ some (.string t) := by
    intro t hg
    rcases objectInterface_get?_source members "event" (.string t) [] m hm hg with
      ⟨x, hx, hxv⟩ | hnil
    · exact hevent x hx t (valueInterface_string x t hxv)
    · simp [GoMap.get?] at hnil
  cases hg : GoMap.get? m "event" with
  | none => simp only [unmarshalFlowdockJSONEvent, Unmarshal, hscan, storeMap, hm, hg]
  | some v =>
    cases v with
    | string t => exact absurd hg (hget t)
    | _ => simp only [unmarshalFlowdockJSONEvent, Unmarshal, hscan, storeMap, hm, hg]

/-- C4: for every byte string that the scanner rejects as not well-formed JSON,
`unmarshalFlowdockJSONEvent` returns an error and no event, and does not panic. -/
theorem unmarshal_malformed (scan : List UInt8 → Option Json) (event : List UInt8)
    (hscan : scan event = none) :
    unmarshalFlowdockJSONEvent scan event = .returned (.error .syntaxError) := by
  simp only [unmarshalFlowdockJSONEvent, Unmarshal, hscan]

/-- C4, at a truncated text. -/
theorem unmarshal_malformed_witness :
    scanJSON (bytesOf "\x7b\"event\":\"message\",") = none
    ∧ unmarshalFlowdockJSONEvent scanJSON (bytesOf "\x7b\"event\":\"message\",")
        = .returned (.error .syntaxError) :=
  ⟨by rfl, unmarshal_malformed scanJSON _ (by rfl)⟩

set_option maxRecDepth 100000

/-- C1, at the spec's two decoding examples: the message text decodes to the Message
variant with id 42 and content `hi`, and the message-edit text to the MessageEdit
variant with updated message `edited` and message id 1. -/
theorem unmarshal_known_tag_witness :
    unmarshalFlowdockJSONEvent scanJSON
      (bytesOf "\x7b\"event\":\"message\",\"id\":42,\"flow\":\"f\",\"content\":\"hi\",\"sent\":1000,\"tags\":[],\"attachments\":[],\"user\":\"7\"\x7d")
      = .returned (.ok (.message ⟨.ofList [], 42, "f", "hi", 1000, .ofList [], "7"⟩))
    ∧ unmarshalFlowdockJSONEvent scanJSON
      (bytesOf "\x7b\"event\":\"message-edit\",\"id\":2,\"flow\":\"f\",\"content\":\x7b\"updated_content\":\"edited\",\"message\":1\x7d,\"sent\":1001,\"tags\":[],\"attachments\":[],\"user\":\"7\"\x7d")
      = .returned (.ok (.messageEdit ⟨.ofList [], 2, "f", ⟨"edited", 1⟩, 1001, .ofList [],
          "7"⟩)) :=
  ⟨unmarshal_known_tag scanJSON _
    [("event", .str "message"), ("id", .num (.int false 42)), ("flow", .str "f"),
      ("content", .str "hi"), ("sent", .num (.int false 1000)), ("tags", .arr []),
      ("attachments", .arr []), ("user", .str "7")]
    _ (by rfl) (by rfl)
    (TypedShape.message (some []) (some 42) (some "f") (some 1000) (some "7") "hi" (some [])
      ⟨by unfold DistinctKeys; decide, by simp [FieldIs], by simp [FieldIs, JNumber.ofInt],
        fun v hv => by cases hv; unfold IsInt64; decide, by simp [FieldIs],
        by simp [FieldIs, JNumber.ofInt], fun v hv => by cases hv; unfold IsInt64; decide,
        by simp [FieldIs]⟩
      (by simp) (by simp) (by simp [StringAttachments, FieldIs])),
  unmarshal_known_tag scanJSON _
    [("event", .str "message-edit"), ("id", .num (.int false 2)), ("flow", .str "f"),
      ("content", .obj [("updated_content", .str "edited"), ("message", .num (.int false 1))]),
      ("sent", .num (.int false 1001)), ("tags", .arr []), ("attachments", .arr []),
      ("user", .str "7")]
    _ (by rfl) (by rfl)
    (TypedShape.messageEdit (some []) (some 2) (some "f") (some 1001) (some "7")
      [("updated_content", .str "edited"), ("message", .num (.int false 1))] "edited" 1
      (some [])
      ⟨by unfold DistinctKeys; decide, by simp [FieldIs], by simp [FieldIs, JNumber.ofInt],
        fun v hv => by cases hv; unfold IsInt64; decide, by simp [FieldIs],
        by simp [FieldIs, JNumber.ofInt], fun v hv => by cases hv; unfold IsInt64; decide,
        by simp [FieldIs]⟩
      (by simp) (by simp) (by unfold DistinctKeys; decide) (by simp)
      (by simp [JNumber.ofInt]) (by unfold IsInt64; decide)
      (by simp [StringAttachments, FieldIs]))⟩

/-- C1 (as stated, refuted): four objects whose `event` is a known tag and whose content
has the declared shape.  With `id` a string, and with an extra member `1e999`, the
decoder returns an error; with both `id` and `ID`, the `ID` field is 7, not the 42 of
`id`; in a file event an attachment number 9007199254740993 is stored as
9007199254740992. -/
theorem unmarshal_known_tag_counterexample :
    unmarshalFlowdockJSONEvent scanJSON
        (bytesOf "\x7b\"event\":\"message\",\"id\":\"42\",\"content\":\"hi\"\x7d")
      = .returned (.error .unmarshalTypeError)
    ∧ unmarshalFlowdockJSONEvent scanJSON
        (bytesOf "\x7b\"event\":\"message\",\"id\":42,\"flow\":\"f\",\"content\":\"hi\",\"sent\":1000,\"tags\":[],\"attachments\":[],\"user\":\"7\",\"x\":1e999\x7d")
      = .returned (.error .unmarshalTypeError)
    ∧ unmarshalFlowdockJSONEvent scanJSON
        (bytesOf "\x7b\"event\":\"message\",\"id\":42,\"ID\":7,\"flow\":\"f\",\"content\":\"hi\",\"sent\":1000,\"tags\":[],\"attachments\":[],\"user\":\"7\"\x7d")
      = .returned (.ok (.message ⟨.ofList [], 7, "f", "hi", 1000, .ofList [], "7"⟩))
    ∧ unmarshalFlowdockJSONEvent scanJSON
        (bytesOf "\x7b\"event\":\"file\",\"id\":42,\"flow\":\"f\",\"content\":\x7b\"path\":\"/p\"\x7d,\"sent\":1000,\"tags\":[],\"attachments\":[\x7b\"size\":9007199254740993\x7d],\"user\":\"7\"\x7d")
      = .returned (.ok (.file ⟨.ofList [], 42, "f", [("path", .string "/p")], 1000,
          .ofList [[("size", .float64 ⟨false, 4503599627370496, 1075⟩)]], "7"⟩))
    ∧ (Float64.mk false 4503599627370496 1075).exactly (.int false 9007199254740992) = true
    ∧ (Float64.mk false 4503599627370496 1075).exactly (.int false 9007199254740993)
        = false :=
  ⟨by rfl, by rfl, by rfl, by rfl, by rfl, by rfl⟩

/-- C2, at the spec's `twitter-stream` example: the text decodes to an `ActionEvent` of
type `twitter-stream` whose content is the object of the input. -/
theorem unmarshal_other_tag_witness :
    unmarshalFlowdockJSONEvent scanJSON
      (bytesOf "\x7b\"event\":\"twitter-stream\",\"id\":3,\"flow\":\"f\",\"content\":\x7b\"anything\":true\x7d,\"sent\":1002,\"tags\":[],\"attachments\":[],\"user\":\"7\"\x7d")
      = .returned (.ok (.action ⟨"twitter-stream", .ofList [], 3, "f",
          .map [("anything", .bool true)], 1002, .ofList [], "7"⟩)) := by
  obtain ⟨v, hres, -, hrep⟩ := unmarshal_other_tag scanJSON
    (bytesOf "\x7b\"event\":\"twitter-stream\",\"id\":3,\"flow\":\"f\",\"content\":\x7b\"anything\":true\x7d,\"sent\":1002,\"tags\":[],\"attachments\":[],\"user\":\"7\"\x7d")
    [("event", .str "twitter-stream"), ("id", .num (.int false 3)), ("flow", .str "f"),
      ("content", .obj [("anything", .bool true)]), ("sent", .num (.int false 1002)),
      ("tags", .arr []), ("attachments", .arr []), ("user", .str "7")]
    "twitter-stream" (some []) (some 3) (some "f") (some 1002) (some "7")
    (.obj [("anything", .bool true)]) (some [])
    (by rfl) (by rfl)
    ⟨by unfold DistinctKeys; decide, by simp [FieldIs], by simp [FieldIs, JNumber.ofInt],
      fun v hv => by cases hv; unfold IsInt64; decide, by simp [FieldIs],
      by simp [FieldIs, JNumber.ofInt], fun v hv => by cases hv; unfold IsInt64; decide,
      by simp [FieldIs]⟩
    (by simp) (by decide) (by simp) (by simp [StringAttachments, FieldIs])
  have hv := hrep (.map [("anything", .bool true)]) (by rfl)
  rw [hv] at hres
  exact hres

/-- C2 (as stated, refuted): four event objects whose `event` is the string `foo`.  With
a second key `EVENT`, the `Type` of the result is `bar`, not `foo`; with the content
`n: 9007199254740993`, the `Content` holds 9007199254740992; with `id` a string, and
with an extra member `1e999`, the decoder returns an error. -/
theorem unmarshal_other_tag_counterexample :
    unmarshalFlowdockJSONEvent scanJSON
        (bytesOf "\x7b\"event\":\"foo\",\"EVENT\":\"bar\",\"id\":3,\"flow\":\"f\",\"content\":\"c\",\"sent\":1002,\"tags\":[],\"attachments\":[],\"user\":\"7\"\x7d")
      = .returned (.ok (.action ⟨"bar", .ofList [], 3, "f", .string "c", 1002, .ofList [],
          "7"⟩))
    ∧ unmarshalFlowdockJSONEvent scanJSON
        (bytesOf "\x7b\"event\":\"foo\",\"id\":3,\"flow\":\"f\",\"content\":\x7b\"n\":9007199254740993\x7d,\"sent\":1002,\"tags\":[],\"attachments\":[],\"user\":\"7\"\x7d")
      = .returned (.ok (.action ⟨"foo", .ofList [], 3, "f",
          .map [("n", .float64 ⟨false, 4503599627370496, 1075⟩)], 1002, .ofList [], "7"⟩))
    ∧ (Float64.mk false 4503599627370496 1075).exactly (.int false 9007199254740992) = true
    ∧ (Float64.mk false 4503599627370496 1075).exactly (.int false 9007199254740993)
        = false
    ∧ unmarshalFlowdockJSONEvent scanJSON
        (bytesOf "\x7b\"event\":\"foo\",\"id\":\"3\",\"content\":\"c\"\x7d")
      = .returned (.error .unmarshalTypeError)
    ∧ unmarshalFlowdockJSONEvent scanJSON
        (bytesOf "\x7b\"event\":\"foo\",\"id\":3,\"flow\":\"f\",\"content\":\"c\",\"sent\":1002,\"tags\":[],\"attachments\":[],\"user\":\"7\",\"x\":1e999\x7d")
      = .returned (.error .unmarshalTypeError) :=
  ⟨by rfl, by rfl, by rfl, by rfl, by rfl, by rfl⟩

/-- C3, at the failing inputs: an object without `event` and an object whose `event`
is a number both make the decoder panic. -/
theorem unmarshal_without_string_event_witness :
    unmarshalFlowdockJSONEvent scanJSON (bytesOf "\x7b\"id\":1\x7d") = .panicked
    ∧ unmarshalFlowdockJSONEvent scanJSON (bytesOf "\x7b\"event\":5,\"id\":1\x7d")
        = .panicked :=
  ⟨unmarshal_without_string_event scanJSON _ [("id", .num (.int false 1))] (by rfl) (by rfl)
      (by simp),
    unmarshal_without_string_event scanJSON _
      [("event", .num (.int false 5)), ("id", .num (.int false 1))]
      (by rfl) (by rfl) (by simp)⟩

/-! ### The file path accessor -/

/-- C8 (as stated, refuted): a `FileEvent` whose metadata stores a number under `path`
has a `path` entry, and `FilePath` returns no value at all for it. -/
theorem FilePath_non_string_path :
    GoMap.get? (⟨GoSlice.nil, 0, "", [("path", .float64 ⟨false, 4503599627370496, 1022⟩)], 0,
        GoSlice.nil, ""⟩ : FileEvent).Content "path"
        = some (.float64 ⟨false, 4503599627370496, 1022⟩)
    ∧ ∀ s, FileEvent.FilePath
        ⟨GoSlice.nil, 0, "", [("path", .float64 ⟨false, 4503599627370496, 1022⟩)], 0,
          GoSlice.nil, ""⟩
        ≠ .returned s := by
  refine ⟨rfl, fun s h => ?_⟩
  simp [FileEvent.FilePath, GoMap.get?] at h

/-- C8 (amended): `FilePath` returns the empty string when the content metadata has
no `path` entry, and exactly the stored value when that value is a string. -/
theorem FilePath_spec (e : FileEvent) :
    (GoMap.get? e.Content "path" = none → e.FilePath = .returned "")
    ∧ (∀ s, GoMap.get? e.Content "path" = some (.string s) → e.FilePath = .returned s) := by
  constructor
  · intro h; simp [FileEvent.FilePath, h]
  · intro s h; simp [FileEvent.FilePath, h]

/-! ### The push form -/

theorem goStringOfInt_data (t : Int) : ∃ c, (goStringOfInt t).data = [c] := by
  unfold goStringOfInt
  split <;> exact ⟨_, rfl⟩

theorem formatNat_two_digits (n : Nat) (h : 10 ≤ n) :
    ∃ c d rest, (formatNat n).data = c :: d :: rest := by
  have hlt : ¬ n < 10 := by omega
  obtain ⟨c, rest, hc, -⟩ := formatBits_head n (n / 10) (by omega)
  simp only [formatNat, formatBits, hlt, if_false]
  rw [formatBits_append, hc]
  cases rest with
  | nil => exact ⟨c, _, [], rfl⟩
  | cons d rest => exact ⟨c, d, rest ++ [Nat.digitChar (n % 10)], by simp⟩

theorem formatNat_nonempty (n : Nat) : ∃ c rest, (formatNat n).data = c :: rest := by
  obtain ⟨c, rest, hc, -⟩ := formatBits_head (n + 1) n (Nat.lt_succ_self n)
  exact ⟨c, rest, hc⟩

theorem goStringOfInt_ne_formatInt (t : Int) : goStringOfInt t ≠ formatInt t := by
  intro heq
  obtain ⟨c, hc⟩ := goStringOfInt_data t
  rw [heq] at hc
  by_cases hneg : t < 0
  · obtain ⟨d, rest, hd⟩ := formatNat_nonempty t.natAbs
    simp [formatInt, hneg, hd] at hc
  · by_cases hbig : 10 ≤ t.natAbs
    · obtain ⟨a, b, rest, hab⟩ := formatNat_two_digits t.natAbs hbig
      simp [formatInt, hneg, hab] at hc
    · have h0 : 0 ≤ t := by omega
      have h9 : t ≤ 9 := by omega
      clear hc hbig hneg
      interval_cases t <;> revert heq <;> decide

/-- C9 (what the code does): the form built by `pushMessage` carries `content` =
message and `external_user_name` = sender, has no `message_id` for thread id 0, and for
a non-zero thread id sets `message_id` to the Go conversion `string(threadID)`, the
text of one code point, which is never the decimal form of the thread id; thread id 65
gives `A`, not `65`. -/
theorem pushMessage_form_message_id (message sender : String) (threadID : Int) :
    GoMap.get? (ReplyToThreadInFlowWithKey.form message sender threadID) "content"
        = some [message]
    ∧ GoMap.get? (ReplyToThreadInFlowWithKey.form message sender threadID) "external_user_name"
        = some [sender]
    ∧ (threadID = 0 →
        GoMap.get? (ReplyToThreadInFlowWithKey.form message sender threadID) "message_id" = none)
    ∧ (threadID ≠ 0 →
        GoMap.get? (ReplyToThreadInFlowWithKey.form message sender threadID) "message_id"
            = some [goStringOfInt threadID]
          ∧ goStringOfInt threadID ≠ formatInt threadID)
    ∧ GoMap.get? (ReplyToThreadInFlowWithKey.form "hi" "bot" 65) "message_id" = some ["A"]
    ∧ formatInt 65 = "65" := by
  refine ⟨?_, ?_, ?_, ?_, by decide, by decide⟩
  · by_cases h : threadID = 0 <;>
      simp [ReplyToThreadInFlowWithKey.form, pushMessage.form, Values.Set, GoMap.set,
        GoMap.get?, h]
  · by_cases h : threadID = 0 <;>
      simp [ReplyToThreadInFlowWithKey.form, pushMessage.form, Values.Set, GoMap.set,
        GoMap.get?, h]
  · intro h
    simp [ReplyToThreadInFlowWithKey.form, pushMessage.form, Values.Set, GoMap.set,
      GoMap.get?, h]
  · intro h
    refine ⟨?_, goStringOfInt_ne_formatInt threadID⟩
    simp [ReplyToThreadInFlowWithKey.form, pushMessage.form, Values.Set, GoMap.set,
      GoMap.get?, h]

end Flowdock
